import Mathlib

/-! The package `iplist`: a sorted IP range table and a P2P blocklist line
parser.

A shallow embedding of `iplist/iplist.go`.

* Bytes are natural numbers (a real byte is `< 256`); `[]byte`, `net.IP` and
  `string` values are lists of bytes.  The nil slice and the empty slice are
  both `[]`: the source tests nil-ness only on the results of `To4`, `To16`
  and `net.ParseIP`, which are `Option` values here (`none` is nil).
* A `*Range` returned by `Lookup` points into the table's storage
  (`&me.ranges[i]`); it is modelled by the index `i`, and the nil pointer by
  `none`.
* A `*IPList` is an `Option IPList`, `none` being the nil receiver.
* A run either returns, or stops on a run-time panic (index or slice bounds
  out of range), or exhausts the fuel of a loop: see `Outcome`.
-/

namespace Iplist

/-- How a run of a function ends. -/
inductive Outcome (α : Type) where
  /-- The function returned the value. -/
  | ret (a : α)
  /-- A run-time panic: index or slice bounds out of range. -/
  | panicBounds
  /-- The loop model ran out of fuel before the loop ended. -/
  | outOfFuel
deriving DecidableEq

/-- A `net.IP`: a byte slice. -/
abbrev IP := List Nat

/-- Go `type Range struct { First, Last net.IP; Description string }`. -/
structure Range where
  First : IP
  Last : IP
  Description : List Nat
deriving DecidableEq

/-- Go `type IPList struct { ranges []Range }`. -/
structure IPList where
  ranges : List Range
deriving DecidableEq

/-- Go `bytes.Compare` (standard library): lexicographic comparison of two
byte slices, `-1`, `0` or `+1`; a proper prefix is smaller, and nil is the
empty slice. -/
def bytesCompare : List Nat → List Nat → Int
  | [], [] => 0
  | [], _ :: _ => -1
  | _ :: _, [] => 1
  | a :: as, b :: bs =>
    if a < b then -1 else if b < a then 1 else bytesCompare as bs

/-- Go `net.IPv4(a, b, c, d)`: the 16-byte IPv4-mapped form, the prefix
`v4InV6Prefix` (ten zero bytes, `0xff`, `0xff`) followed by the four bytes. -/
def IPv4 (a b c d : Nat) : IP :=
  [0, 0, 0, 0, 0, 0, 0, 0, 0, 0, 0xff, 0xff, a, b, c, d]

/-- Go `net.IP.To4`: the 4-byte form of an address, nil (`none`) if it has
none. -/
def To4 (ip : IP) : Option IP :=
  if ip.length = 4 then some ip
  else if ip.length = 16 ∧ (ip.take 10).all (fun b => b == 0)
      ∧ ip.getD 10 0 = 0xff ∧ ip.getD 11 0 = 0xff then
    some ((ip.take 16).drop 12)
  else none

/-- Go `net.IP.To16`: the 16-byte form of an address, nil (`none`) if the
length is neither 4 nor 16. -/
def To16 (ip : IP) : Option IP :=
  if ip.length = 4 then
    some (IPv4 (ip.getD 0 0) (ip.getD 1 0) (ip.getD 2 0) (ip.getD 3 0))
  else if ip.length = 16 then some ip
  else none

/-- The loop of Go `sort.Search` (standard library):
`for i < j { h := int(uint(i+j) >> 1); if !f(h) { i = h + 1 } else { j = h } }`,
then `return i`.  One unit of fuel is spent per iteration.  The predicate may
panic. -/
def searchLoop (f : Nat → Outcome Bool) : Nat → Nat → Nat → Outcome Nat
  | fuel, i, j =>
    if i < j then
      match fuel with
      | 0 => Outcome.outOfFuel
      | fuel + 1 =>
        match f ((i + j) / 2) with
        | Outcome.ret false => searchLoop f fuel ((i + j) / 2 + 1) j
        | Outcome.ret true => searchLoop f fuel i ((i + j) / 2)
        | Outcome.panicBounds => Outcome.panicBounds
        | Outcome.outOfFuel => Outcome.outOfFuel
    else Outcome.ret i

/-- Go `sort.Search(n, f)`: `i, j := 0, n`, then the loop.  The interval
`[i, j)` shrinks at every iteration, so `n` units of fuel are given. -/
def sortSearch (n : Nat) (f : Nat → Outcome Bool) : Outcome Nat :=
  searchLoop f n 0 n

/-- Go `New`: the table keeps the given slice as it is. -/
def New (initSorted : List Range) : Option IPList :=
  some { ranges := initSorted }

/-- Go `(*IPList).NumRanges`. -/
def NumRanges (me : Option IPList) : Nat :=
  match me with
  | none => 0
  | some t => t.ranges.length

/-- The predicate `lookup` hands to `sort.Search`:
`if i+1 >= len(me.ranges) { return true };
 return bytes.Compare(ip, me.ranges[i+1].First) < 0`. -/
def lookupPred (me : IPList) (ip : IP) (i : Nat) : Outcome Bool :=
  if i + 1 ≥ me.ranges.length then Outcome.ret true
  else
    match me.ranges[i + 1]? with
    | none => Outcome.panicBounds
    | some r => Outcome.ret (decide (bytesCompare ip r.First < 0))

/-- Go `(*IPList).lookup`: the search step.  Returns the index of the range
pointed to by the result, `none` for nil. -/
def lookup (me : IPList) (ip : IP) : Outcome (Option Nat) :=
  match sortSearch me.ranges.length (lookupPred me ip) with
  | Outcome.ret i =>
    if i = me.ranges.length then Outcome.ret none
    else
      match me.ranges[i]? with
      | none => Outcome.panicBounds
      | some r =>
        if bytesCompare ip r.First < 0 ∨ bytesCompare ip r.Last > 0 then
          Outcome.ret none
        else Outcome.ret (some i)
  | Outcome.panicBounds => Outcome.panicBounds
  | Outcome.outOfFuel => Outcome.outOfFuel

/-- Go `(*IPList).Lookup`: nil receiver gives nil; otherwise the 4-byte form
is searched first and, if that finds nothing, the 16-byte form. -/
def Lookup (me : Option IPList) (ip : IP) : Outcome (Option Nat) :=
  match me with
  | none => Outcome.ret none
  | some t =>
    match (match To4 ip with
           | some v4 => lookup t v4
           | none => Outcome.ret none) with
    | Outcome.ret (some i) => Outcome.ret (some i)
    | Outcome.ret none =>
      match To16 ip with
      | some v6 => lookup t v6
      | none => Outcome.ret none
    | Outcome.panicBounds => Outcome.panicBounds
    | Outcome.outOfFuel => Outcome.outOfFuel

/-- Sequencing of runs: a panic or fuel exhaustion of the first stops the
whole run. -/
def Outcome.bind {α β : Type} (x : Outcome α) (k : α → Outcome β) : Outcome β :=
  match x with
  | Outcome.ret a => k a
  | Outcome.panicBounds => Outcome.panicBounds
  | Outcome.outOfFuel => Outcome.outOfFuel

/-- The bytes of an ASCII string literal, Go `[]byte("...")`. -/
def asciiBytes (s : String) : List Nat := s.toList.map Char.toNat

/-- The ASCII white space of Go `unicode.IsSpace`:
`'\t'`, `'\n'`, `'\v'`, `'\f'`, `'\r'`, `' '`. -/
def asciiSpace (c : Nat) : Bool :=
  c == 0x09 || c == 0x0a || c == 0x0b || c == 0x0c || c == 0x0d || c == 0x20

/-- The two-byte UTF-8 encodings of white space runes: U+0085 (`C2 85`) and
U+00A0 (`C2 A0`). -/
def space2 (c0 c1 : Nat) : Bool :=
  c0 == 0xC2 && (c1 == 0x85 || c1 == 0xA0)

/-- The three-byte UTF-8 encodings of white space runes: U+1680 (`E1 9A 80`),
U+2000 to U+200A (`E2 80 80` to `E2 80 8A`), U+2028, U+2029, U+202F
(`E2 80 A8`, `E2 80 A9`, `E2 80 AF`), U+205F (`E2 81 9F`) and U+3000
(`E3 80 80`). -/
def space3 (c0 c1 c2 : Nat) : Bool :=
  (c0 == 0xE1 && c1 == 0x9A && c2 == 0x80)
  || (c0 == 0xE2 && c1 == 0x80
        && ((0x80 ≤ c2 && c2 ≤ 0x8A) || c2 == 0xA8 || c2 == 0xA9 || c2 == 0xAF))
  || (c0 == 0xE2 && c1 == 0x81 && c2 == 0x9F)
  || (c0 == 0xE3 && c1 == 0x80 && c2 == 0x80)

/-- Go `bytes.TrimLeftFunc(s, unicode.IsSpace)` (standard library): drops the
leading runes that are white space.  A rune decoded at the front is white
space exactly when the front bytes are one of the encodings above. -/
def trimLeftSpace : List Nat → List Nat
  | [] => []
  | c0 :: t0 =>
    if asciiSpace c0 then trimLeftSpace t0
    else
      match t0 with
      | [] => c0 :: t0
      | c1 :: t1 =>
        if space2 c0 c1 then trimLeftSpace t1
        else
          match t1 with
          | [] => c0 :: t0
          | c2 :: t2 =>
            if space3 c0 c1 c2 then trimLeftSpace t2 else c0 :: t0

/-- The loop of Go `bytes.TrimRightFunc(s, unicode.IsSpace)` on the reversed
slice (last byte first): drops the trailing runes that are white space.  A
rune decoded at the end (`utf8.DecodeLastRune`) is white space exactly when
the last bytes are one of the encodings above. -/
def trimRevSpace : List Nat → List Nat
  | [] => []
  | c0 :: t0 =>
    if asciiSpace c0 then trimRevSpace t0
    else
      match t0 with
      | [] => c0 :: t0
      | c1 :: t1 =>
        if space2 c1 c0 then trimRevSpace t1
        else
          match t1 with
          | [] => c0 :: t0
          | c2 :: t2 =>
            if space3 c2 c1 c0 then trimRevSpace t2 else c0 :: t0

/-- Go `bytes.TrimRightFunc(s, unicode.IsSpace)`. -/
def trimRightSpace (s : List Nat) : List Nat :=
  (trimRevSpace s.reverse).reverse

/-- Go `bytes.TrimSpace` (standard library): slices off all leading and
trailing white space, as defined by Unicode. -/
def TrimSpace (s : List Nat) : List Nat :=
  trimRightSpace (trimLeftSpace s)

/-- Go `bytes.HasPrefix(s, p)`. -/
def HasPrefix (s p : List Nat) : Bool := p.isPrefixOf s

/-- Go `bytes.IndexByte(b, c)`: the index of the first instance of `c` in
`b`, or `-1` if `c` is not present. -/
def IndexByte (b : List Nat) (c : Nat) : Int :=
  if c ∈ b then (b.indexOf c : Int) else -1

/-- The Go slice expression `s[lo:hi]`.  It panics unless
`0 <= lo <= hi <= len(s)` (Go allows `hi` up to the capacity; the stricter
bound is checked here). -/
def slice (s : List Nat) (lo hi : Int) : Outcome (List Nat) :=
  if 0 ≤ lo ∧ lo ≤ hi ∧ hi ≤ (s.length : Int) then
    Outcome.ret ((s.take hi.toNat).drop lo.toNat)
  else Outcome.panicBounds

/-- The zero `Range`: nil `First`, nil `Last`, empty `Description`. -/
def zeroRange : Range := { First := [], Last := [], Description := [] }

/-- Go `ParseBlocklistP2PLine`.  The result is `(r, ok, err)`; `err` is the
message of the error, `none` for a nil error.  `net.ParseIP` belongs to the
standard library and is a parameter: `ParseIP text` is `none` when the
library returns nil. -/
def ParseBlocklistP2PLine (ParseIP : List Nat → Option IP) (l : List Nat) :
    Outcome (Range × Bool × Option String) :=
  let l := TrimSpace l
  if l.length = 0 ∨ HasPrefix l (asciiBytes "#") = true then
    Outcome.ret (zeroRange, false, none)
  else
    let colon := IndexByte l 58
    if colon = -1 then Outcome.ret (zeroRange, false, some "missing colon")
    else
      (slice l (colon + 1) l.length).bind fun rest =>
      let hyphen := IndexByte rest 45
      if hyphen = -1 then Outcome.ret (zeroRange, false, some "missing hyphen")
      else
        let hyphen := hyphen + (colon + 1)
        (slice l 0 colon).bind fun description =>
        (slice l (colon + 1) hyphen).bind fun firstText =>
        (slice l (hyphen + 1) l.length).bind fun lastText =>
        let r : Range :=
          { First := (ParseIP firstText).getD []
            Last := (ParseIP lastText).getD []
            Description := description }
        if ParseIP firstText = none ∨ ParseIP lastText = none then
          Outcome.ret (r, false, none)
        else Outcome.ret (r, true, none)

/-- Go `net.dtoi` (standard library), the loop: reads leading decimal digits
of `s`; `n` is the value so far and `i` the number of digits read.  The
result is `(n, i, ok)`. -/
def dtoiLoop : List Nat → Nat → Nat → Nat × Nat × Bool
  | [], n, i => if i = 0 then (0, 0, false) else (n, i, true)
  | c :: t, n, i =>
    if 48 ≤ c ∧ c ≤ 57 then
      if n * 10 + (c - 48) ≥ 0xFFFFFF then (0xFFFFFF, i, false)
      else dtoiLoop t (n * 10 + (c - 48)) (i + 1)
    else if i = 0 then (0, 0, false) else (n, i, true)

/-- Go `net.dtoi`. -/
def dtoi (s : List Nat) : Nat × Nat × Bool := dtoiLoop s 0 0

/-- The loop of Go `net.parseIPv4` (standard library): `k` fields are still
to be read, `first` tells whether the next field is the first one, `acc`
holds the fields read so far. -/
def parseIPv4Fields : Nat → Bool → List Nat → List Nat → Option (List Nat)
  | 0, _, s, acc => if s.length ≠ 0 then none else some acc
  | k + 1, first, s, acc =>
    if s.length = 0 then none
    else if first = false ∧ s.head? ≠ some 46 then none
    else
      let s1 := if first then s else s.drop 1
      match dtoi s1 with
      | (n, c, ok) =>
        if ok = false ∨ n > 0xFF then none
        else if c > 1 ∧ s1.head? = some 48 then none
        else parseIPv4Fields k false (s1.drop c) (acc ++ [n])

/-- Go `net.parseIPv4`: dotted decimal text to the 16-byte form
`IPv4(p[0], p[1], p[2], p[3])`. -/
def parseIPv4 (s : List Nat) : Option IP :=
  match parseIPv4Fields 4 true s [] with
  | some [a, b, c, d] => some (IPv4 a b c d)
  | _ => none

/-- A value for the `ParseIP` parameter in the examples: Go `net.ParseIP` on
text without a colon, which is handed to `parseIPv4` when it holds a dot and
is rejected otherwise.  Text with a colon (IPv6) is not modelled and is
rejected here. -/
def parseIPDotted (s : List Nat) : Option IP :=
  if 58 ∈ s then none else if 46 ∈ s then parseIPv4 s else none

/-- The range contains the address: `r.first <= a <= r.last` in the order of
`bytes.Compare`. -/
def Range.contains (r : Range) (a : IP) : Prop :=
  bytesCompare r.First a ≤ 0 ∧ bytesCompare a r.Last ≤ 0

instance (r : Range) (a : IP) : Decidable (r.contains a) := by
  unfold Range.contains; infer_instance

/-- Every bound of every range of the table is `k` bytes long. -/
def boundsOfLength (k : Nat) (rs : List Range) : Prop :=
  ∀ r ∈ rs, r.First.length = k ∧ r.Last.length = k

/-- Each range of the table has `first <= last`. -/
def firstLeLast (rs : List Range) : Prop :=
  ∀ r ∈ rs, bytesCompare r.First r.Last ≤ 0

/-- The table is sorted ascending by `first`. -/
def sortedByFirst (rs : List Range) : Prop :=
  rs.Pairwise fun r s => bytesCompare r.First s.First ≤ 0

/-- The ranges do not overlap: `ranges[i].last < ranges[j].first` for
`i < j`. -/
def nonOverlapping (rs : List Range) : Prop :=
  rs.Pairwise fun r s => bytesCompare r.Last s.First < 0

instance (k : Nat) (rs : List Range) : Decidable (boundsOfLength k rs) := by
  unfold boundsOfLength; infer_instance

instance (rs : List Range) : Decidable (firstLeLast rs) := by
  unfold firstLeLast; infer_instance

instance (rs : List Range) : Decidable (sortedByFirst rs) := by
  unfold sortedByFirst; infer_instance

instance (rs : List Range) : Decidable (nonOverlapping rs) := by
  unfold nonOverlapping; infer_instance

/-- An example table of 16-byte ranges, as built from blocklist lines: the
IPv4 block `10.0.0.0-10.0.0.255` in its mapped form `::ffff:10.0.0.0` to
`::ffff:10.0.0.255`, then the IPv6 block `900::` to
`bff:ffff:ffff:ffff:ffff:ffff:ffff:ffff`. -/
def mappedThenV6 : List Range :=
  [ { First := IPv4 10 0 0 0, Last := IPv4 10 0 0 255, Description := asciiBytes "A" },
    { First := [0x09, 0, 0, 0, 0, 0, 0, 0, 0, 0, 0, 0, 0, 0, 0, 0],
      Last := [0x0b, 0xff, 0xff, 0xff, 0xff, 0xff, 0xff, 0xff,
               0xff, 0xff, 0xff, 0xff, 0xff, 0xff, 0xff, 0xff],
      Description := asciiBytes "B" } ]

/-- An example table of one 4-byte range, `0.0.0.0-0.255.255.255`. -/
def zeroNet : List Range :=
  [ { First := [0, 0, 0, 0], Last := [0, 255, 255, 255], Description := asciiBytes "Z" } ]

/-- An example table of one 16-byte range, the IPv6 block `2000::` to
`3fff:ffff:ffff:ffff:ffff:ffff:ffff:ffff`. -/
def globalUnicast : List Range :=
  [ { First := [0x20, 0, 0, 0, 0, 0, 0, 0, 0, 0, 0, 0, 0, 0, 0, 0],
      Last := [0x3f, 0xff, 0xff, 0xff, 0xff, 0xff, 0xff, 0xff,
               0xff, 0xff, 0xff, 0xff, 0xff, 0xff, 0xff, 0xff],
      Description := asciiBytes "G" } ]

/-- An example table of one 4-byte range, `10.0.0.0-10.0.0.255`. -/
def tenNet : List Range :=
  [ { First := [10, 0, 0, 0], Last := [10, 0, 0, 255], Description := asciiBytes "T" } ]

/-- The value of the variable `colon` of `ParseBlocklistP2PLine`:
`bytes.IndexByte(l, ':')` on the trimmed line. -/
def lineColon (l : List Nat) : Int := IndexByte (TrimSpace l) 58

/-- The bytes of `l[colon+1:]` in `ParseBlocklistP2PLine`, for `colon` not
`-1`. -/
def lineRest (l : List Nat) : List Nat :=
  (TrimSpace l).drop ((lineColon l).toNat + 1)

/-- The value of the variable `hyphen` of `ParseBlocklistP2PLine` after
`hyphen += colon + 1`. -/
def lineHyphen (l : List Nat) : Int :=
  IndexByte (lineRest l) 45 + (lineColon l + 1)

/-! ### Counting comparisons

The functions below are `lookupPred`, `searchLoop`, `lookup` and `Lookup`
again, with two counters threaded through: the number of calls of the search
predicate and the number of calls of `bytes.Compare`. -/

/-- The predicate of `lookup` together with the number of calls of
`bytes.Compare` it made: none when `i+1 >= len(me.ranges)`, one otherwise. -/
def lookupPredCounted (me : IPList) (ip : IP) (i : Nat) : Outcome (Bool × Nat) :=
  if i + 1 ≥ me.ranges.length then Outcome.ret (true, 0)
  else
    match me.ranges[i + 1]? with
    | none => Outcome.panicBounds
    | some r => Outcome.ret (decide (bytesCompare ip r.First < 0), 1)

/-- The loop of `sort.Search` with counters: `evals` is the number of calls
of the predicate so far, `cmps` the number of comparisons they made.  The
result is `(i, evals, cmps)`. -/
def searchLoopCounted (f : Nat → Outcome (Bool × Nat)) :
    Nat → Nat → Nat → Nat → Nat → Outcome (Nat × Nat × Nat)
  | fuel, i, j, evals, cmps =>
    if i < j then
      match fuel with
      | 0 => Outcome.outOfFuel
      | fuel + 1 =>
        match f ((i + j) / 2) with
        | Outcome.ret (false, c) =>
          searchLoopCounted f fuel ((i + j) / 2 + 1) j (evals + 1) (cmps + c)
        | Outcome.ret (true, c) =>
          searchLoopCounted f fuel i ((i + j) / 2) (evals + 1) (cmps + c)
        | Outcome.panicBounds => Outcome.panicBounds
        | Outcome.outOfFuel => Outcome.outOfFuel
    else Outcome.ret (i, evals, cmps)

/-- The search step `lookup` with counters.  The result is
`(r, evals, cmps)`: the pointer returned, the number of calls of the search
predicate, and the number of calls of `bytes.Compare` in all (those of the
predicate, then one or two for the containment check, whose `||` does not
evaluate its second operand when the first holds). -/
def lookupCounted (me : IPList) (ip : IP) : Outcome (Option Nat × Nat × Nat) :=
  match searchLoopCounted (lookupPredCounted me ip) me.ranges.length 0
      me.ranges.length 0 0 with
  | Outcome.ret (i, evals, cmps) =>
    if i = me.ranges.length then Outcome.ret (none, evals, cmps)
    else
      match me.ranges[i]? with
      | none => Outcome.panicBounds
      | some r =>
        if bytesCompare ip r.First < 0 then Outcome.ret (none, evals, cmps + 1)
        else if bytesCompare ip r.Last > 0 then Outcome.ret (none, evals, cmps + 2)
        else Outcome.ret (some i, evals, cmps + 2)
  | Outcome.panicBounds => Outcome.panicBounds
  | Outcome.outOfFuel => Outcome.outOfFuel

/-- The public `Lookup` with a counter.  The result is `(r, cmps)`: the
pointer returned and the number of calls of `bytes.Compare` in all. -/
def LookupCounted (me : Option IPList) (ip : IP) : Outcome (Option Nat × Nat) :=
  match me with
  | none => Outcome.ret (none, 0)
  | some t =>
    match (match To4 ip with
           | some v4 => lookupCounted t v4
           | none => Outcome.ret (none, 0, 0)) with
    | Outcome.ret (some i, _, c4) => Outcome.ret (some i, c4)
    | Outcome.ret (none, _, c4) =>
      match To16 ip with
      | some v6 =>
        match lookupCounted t v6 with
        | Outcome.ret (r, _, c6) => Outcome.ret (r, c4 + c6)
        | Outcome.panicBounds => Outcome.panicBounds
        | Outcome.outOfFuel => Outcome.outOfFuel
      | none => Outcome.ret (none, c4)
    | Outcome.panicBounds => Outcome.panicBounds
    | Outcome.outOfFuel => Outcome.outOfFuel

/-! ### The candidate index, as the specification words it -/

/-- A linear scan: the lowest index among `i`, `i+1`, ..., `i+k-1` at which
`P` holds, and `i+k` if there is none. -/
def linearSearch (P : Nat → Bool) : Nat → Nat → Nat
  | 0, i => i
  | k + 1, i => if P i then i else linearSearch P k (i + 1)

/-- Whether `i` is a candidate, in the words of the specification: "either
`i` is the last index, or the probe address is strictly less than the first
bound of range `i+1`". -/
def isCandidate (rs : List Range) (p : IP) (i : Nat) : Bool :=
  decide (i + 1 = rs.length) ||
    match rs[i + 1]? with
    | some r => decide (bytesCompare p r.First < 0)
    | none => false

/-- The candidate index of the specification, "the lowest index such that
either `i` is the last index, or the probe address is strictly less than the
first bound of range `i+1`", found by a linear scan of the table
(`len(ranges)` if there is none). -/
def candidateSpec (rs : List Range) (p : IP) : Nat :=
  linearSearch (isCandidate rs p) rs.length 0

/-- Go `v4InV6Prefix`: ten zero bytes, `0xff`, `0xff`. -/
def v4InV6Prefix : List Nat := [0, 0, 0, 0, 0, 0, 0, 0, 0, 0, 0xff, 0xff]

/-- The address is a 16-byte IPv4-mapped address: `v4InV6Prefix` followed by
four address bytes. -/
def isMapped (ip : IP) : Prop :=
  ip.length = 16 ∧ ip.take 12 = v4InV6Prefix

instance (ip : IP) : Decidable (isMapped ip) := by
  unfold isMapped; infer_instance

/-- Every bound of every range of the table is a 16-byte IPv4-mapped
address. -/
def mappedBounds (rs : List Range) : Prop :=
  ∀ r ∈ rs, isMapped r.First ∧ isMapped r.Last

instance (rs : List Range) : Decidable (mappedBounds rs) := by
  unfold mappedBounds; infer_instance

/-- The byte is one of space, tab, carriage return, newline. -/
def isBlankByte (c : Nat) : Prop :=
  c = 0x20 ∨ c = 0x09 ∨ c = 0x0d ∨ c = 0x0a

instance (c : Nat) : Decidable (isBlankByte c) := by
  unfold isBlankByte; infer_instance

/-- An example table of IPv4 ranges in 16-byte mapped form, as the parser
gives them: `10.0.0.0-10.0.0.255` and `10.0.1.0-10.0.1.255`. -/
def mappedTable : List Range :=
  [ { First := IPv4 10 0 0 0, Last := IPv4 10 0 0 255, Description := asciiBytes "A" },
    { First := IPv4 10 0 1 0, Last := IPv4 10 0 1 255, Description := asciiBytes "B" } ]

/-- An example table of 4-byte ranges: `10.0.0.0-10.0.0.255` and
`10.0.1.0-10.0.1.255`. -/
def twoNets : List Range :=
  [ { First := [10, 0, 0, 0], Last := [10, 0, 0, 255], Description := asciiBytes "A" },
    { First := [10, 0, 1, 0], Last := [10, 0, 1, 255], Description := asciiBytes "B" } ]

/-! ## The order of `bytes.Compare` -/

theorem bytesCompare_values (a b : List Nat) :
    bytesCompare a b = -1 ∨ bytesCompare a b = 0 ∨ bytesCompare a b = 1 := by
  induction a generalizing b with
  | nil => cases b <;> simp [bytesCompare]
  | cons x xs ih =>
    cases b with
    | nil => simp [bytesCompare]
    | cons y ys =>
      simp only [bytesCompare]
      split_ifs
      · simp
      · simp
      · exact ih ys

theorem bytesCompare_swap (a b : List Nat) :
    bytesCompare b a = - bytesCompare a b := by
  induction a generalizing b with
  | nil => cases b <;> simp [bytesCompare]
  | cons x xs ih =>
    cases b with
    | nil => simp [bytesCompare]
    | cons y ys =>
      simp only [bytesCompare]
      split_ifs <;> first | omega | rfl | exact ih ys

theorem bytesCompare_self (a : List Nat) : bytesCompare a a = 0 := by
  induction a with
  | nil => rfl
  | cons x xs ih => simp [bytesCompare, ih]

theorem bytesCompare_eq_zero {a b : List Nat} (h : bytesCompare a b = 0) :
    a = b := by
  induction a generalizing b with
  | nil => cases b <;> simp_all [bytesCompare]
  | cons x xs ih =>
    cases b with
    | nil => simp [bytesCompare] at h
    | cons y ys =>
      simp only [bytesCompare] at h
      by_cases h1 : x < y
      · simp [h1] at h
      · by_cases h2 : y < x
        · simp [h1, h2] at h
        · simp only [h1, h2, if_false] at h
          have hxy : x = y := by omega
          rw [hxy, ih h]

theorem bytesCompare_lt_trans {a b c : List Nat}
    (h1 : bytesCompare a b < 0) (h2 : bytesCompare b c < 0) :
    bytesCompare a c < 0 := by
  induction a generalizing b c with
  | nil =>
    cases b with
    | nil => simp [bytesCompare] at h1
    | cons y ys =>
      cases c with
      | nil => simp [bytesCompare] at h2
      | cons z zs => simp [bytesCompare]
  | cons x xs ih =>
    cases b with
    | nil => simp [bytesCompare] at h1
    | cons y ys =>
      cases c with
      | nil => simp [bytesCompare] at h2
      | cons z zs =>
        simp only [bytesCompare] at h1 h2 ⊢
        split_ifs at h1 h2 ⊢ <;> first | omega | exact ih h1 h2

theorem bytesCompare_le_lt_trans {a b c : List Nat}
    (h1 : bytesCompare a b ≤ 0) (h2 : bytesCompare b c < 0) :
    bytesCompare a c < 0 := by
  rcases lt_or_eq_of_le h1 with h | h
  · exact bytesCompare_lt_trans h h2
  · rw [bytesCompare_eq_zero h]; exact h2

theorem bytesCompare_lt_le_trans {a b c : List Nat}
    (h1 : bytesCompare a b < 0) (h2 : bytesCompare b c ≤ 0) :
    bytesCompare a c < 0 := by
  rcases lt_or_eq_of_le h2 with h | h
  · exact bytesCompare_lt_trans h1 h
  · rw [← bytesCompare_eq_zero h]; exact h1

/-! ## The binary search -/

/-- The loop of `sort.Search` returns when the fuel covers the interval and
the predicate does not panic on it; the result `r` lies in `[i, j]`, the
predicate is false just below `r` (or `r = i`) and true at `r` (or
`r = j`). -/
theorem searchLoop_spec (f : Nat → Outcome Bool) :
    ∀ (fuel i j : Nat), i ≤ j → j - i ≤ fuel →
      (∀ h, i ≤ h → h < j → ∃ b, f h = Outcome.ret b) →
      ∃ r, searchLoop f fuel i j = Outcome.ret r ∧ i ≤ r ∧ r ≤ j
        ∧ (r = i ∨ f (r - 1) = Outcome.ret false)
        ∧ (r = j ∨ f r = Outcome.ret true) := by
  intro fuel
  induction fuel with
  | zero =>
    intro i j hij hfuel _
    have : i = j := by omega
    subst this
    exact ⟨i, by simp [searchLoop], le_refl _, le_refl _, Or.inl rfl, Or.inl rfl⟩
  | succ fuel ih =>
    intro i j hij hfuel hf
    by_cases hlt : i < j
    · have hh1 : i ≤ (i + j) / 2 := by omega
      have hh2 : (i + j) / 2 < j := by omega
      obtain ⟨b, hb⟩ := hf _ hh1 hh2
      cases b with
      | false =>
        obtain ⟨r, hr, h1, h2, h3, h4⟩ :=
          ih ((i + j) / 2 + 1) j (by omega) (by omega)
            (fun h hh hj => hf h (by omega) hj)
        refine ⟨r, ?_, by omega, h2, ?_, h4⟩
        · rw [searchLoop]; simp only [hlt, if_true, hb]; exact hr
        · rcases h3 with h3 | h3
          · right; rw [h3]; simpa using hb
          · right; exact h3
      | true =>
        obtain ⟨r, hr, h1, h2, h3, h4⟩ :=
          ih i ((i + j) / 2) hh1 (by omega)
            (fun h hh hj => hf h hh (by omega))
        refine ⟨r, ?_, h1, by omega, h3, ?_⟩
        · rw [searchLoop]; simp only [hlt, if_true, hb]; exact hr
        · rcases h4 with h4 | h4
          · right; rw [h4]; exact hb
          · right; exact h4
    · have : i = j := by omega
      subst this
      exact ⟨i, by rw [searchLoop]; simp, le_refl _, le_refl _, Or.inl rfl, Or.inl rfl⟩

/-- The predicate of `lookup` never panics. -/
theorem lookupPred_ret (me : IPList) (ip : IP) (i : Nat) :
    ∃ b, lookupPred me ip i = Outcome.ret b := by
  unfold lookupPred
  by_cases h : i + 1 ≥ me.ranges.length
  · exact ⟨true, by simp [h]⟩
  · have hlt : i + 1 < me.ranges.length := by omega
    simp only [h, if_false, List.getElem?_eq_getElem hlt]
    exact ⟨_, rfl⟩

theorem lookupPred_false {me : IPList} {ip : IP} {i : Nat}
    (h : lookupPred me ip i = Outcome.ret false) :
    ∃ r, me.ranges[i + 1]? = some r ∧ ¬ bytesCompare ip r.First < 0 := by
  unfold lookupPred at h
  by_cases hn : i + 1 ≥ me.ranges.length
  · simp [hn] at h
  · have hlt : i + 1 < me.ranges.length := by omega
    simp only [hn, if_false, List.getElem?_eq_getElem hlt] at h
    refine ⟨_, List.getElem?_eq_getElem hlt, ?_⟩
    simpa using h

theorem lookupPred_true {me : IPList} {ip : IP} {i : Nat}
    (h : lookupPred me ip i = Outcome.ret true) :
    me.ranges.length ≤ i + 1
      ∨ ∃ r, me.ranges[i + 1]? = some r ∧ bytesCompare ip r.First < 0 := by
  unfold lookupPred at h
  by_cases hn : i + 1 ≥ me.ranges.length
  · exact Or.inl hn
  · have hlt : i + 1 < me.ranges.length := by omega
    simp only [hn, if_false, List.getElem?_eq_getElem hlt] at h
    refine Or.inr ⟨_, List.getElem?_eq_getElem hlt, ?_⟩
    simpa using h

/-- The search of `lookup` returns a candidate index `c`: no range after the
first lies at or before the probe beyond `c`, and the range after `c`, if
any, starts above the probe. -/
theorem sortSearch_lookupPred (me : IPList) (ip : IP) :
    ∃ c, sortSearch me.ranges.length (lookupPred me ip) = Outcome.ret c
      ∧ c ≤ me.ranges.length
      ∧ (c = 0 ∨ lookupPred me ip (c - 1) = Outcome.ret false)
      ∧ (c = me.ranges.length ∨ lookupPred me ip c = Outcome.ret true) := by
  obtain ⟨r, hr, _, h2, h3, h4⟩ :=
    searchLoop_spec (lookupPred me ip) me.ranges.length 0 me.ranges.length
      (Nat.zero_le _) (by omega) (fun h _ _ => lookupPred_ret me ip h)
  exact ⟨r, hr, h2, h3, h4⟩

/-- In a table without overlaps whose ranges have `first <= last`, the search
step returns the range that contains the probe. -/
theorem lookup_of_contains (rs : List Range) (p : IP) (j : Nat) (r : Range)
    (hle : firstLeLast rs) (hno : nonOverlapping rs)
    (hj : rs[j]? = some r) (hc : r.contains p) :
    lookup { ranges := rs } p = Outcome.ret (some j) := by
  obtain ⟨hjn, hjr⟩ := List.getElem?_eq_some.mp hj
  have hpair := List.pairwise_iff_getElem.mp hno
  obtain ⟨c, hc0, hcn, hlo, hhi⟩ := sortSearch_lookupPred { ranges := rs } p
  have hFirst : ¬ bytesCompare p r.First < 0 := by
    have := hc.1
    rw [bytesCompare_swap] at this
    omega
  have hcj : c = j := by
    rcases Nat.lt_trichotomy c j with hlt | heq | hgt
    · exfalso
      rcases hhi with hhi | hhi
      · simp only at hhi; omega
      · rcases lookupPred_true hhi with h | ⟨s, hs, hps⟩
        · simp only at h; omega
        · simp only at hs
          obtain ⟨hsn, hsr⟩ := List.getElem?_eq_some.mp hs
          rcases Nat.lt_or_ge (c + 1) j with h1 | h1
          · have hsl : bytesCompare s.First s.Last ≤ 0 := hle s (List.getElem?_mem hs)
            have h2 : bytesCompare s.Last r.First < 0 := by
              have := hpair (c + 1) j hsn hjn h1
              rwa [hsr, hjr] at this
            have h3 := bytesCompare_lt_trans hps (bytesCompare_le_lt_trans hsl h2)
            exact hFirst h3
          · have : c + 1 = j := by omega
            subst this
            have : s = r := by rw [← hsr, ← hjr]
            subst this
            exact hFirst hps
    · exact heq
    · exfalso
      rcases hlo with hlo | hlo
      · omega
      · obtain ⟨s, hs, hps⟩ := lookupPred_false hlo
        simp only at hs
        have hcc : c - 1 + 1 = c := by omega
        rw [hcc] at hs
        obtain ⟨hsn, hsr⟩ := List.getElem?_eq_some.mp hs
        have h2 : bytesCompare r.Last s.First < 0 := by
          have := hpair j c hjn hsn hgt
          rwa [hsr, hjr] at this
        exact hps (bytesCompare_le_lt_trans hc.2 h2)
  subst hcj
  have hLast : ¬ bytesCompare p r.Last > 0 := by
    have := hc.2
    omega
  unfold lookup
  simp only [hc0, hj]
  have hne : ¬ c = rs.length := by omega
  simp [hne, hFirst, hLast]

/-- The search step returns a range only if the range contains the probe
(the explicit check after the search). -/
theorem lookup_some_contains (rs : List Range) (p : IP) (j : Nat)
    (h : lookup { ranges := rs } p = Outcome.ret (some j)) :
    ∃ r, rs[j]? = some r ∧ r.contains p := by
  unfold lookup at h
  obtain ⟨c, hc0, hcn, -, -⟩ := sortSearch_lookupPred { ranges := rs } p
  dsimp only at hc0 hcn
  simp only [hc0] at h
  by_cases hn : c = rs.length
  · simp [hn] at h
  · have hlt : c < rs.length := by omega
    simp only [hn, if_false, List.getElem?_eq_getElem hlt] at h
    by_cases hchk : bytesCompare p rs[c].First < 0 ∨ bytesCompare p rs[c].Last > 0
    · simp [hchk] at h
    · simp only [hchk, if_false, Outcome.ret.injEq, Option.some.injEq] at h
      subst h
      refine ⟨rs[c], List.getElem?_eq_getElem hlt, ?_⟩
      unfold Range.contains
      rw [bytesCompare_swap]
      omega

/-- The search step always returns: it neither panics nor runs out of
fuel. -/
theorem lookup_returns (me : IPList) (p : IP) :
    ∃ res, lookup me p = Outcome.ret res := by
  unfold lookup
  obtain ⟨c, hc0, hcn, -, -⟩ := sortSearch_lookupPred me p
  simp only [hc0]
  by_cases hn : c = me.ranges.length
  · exact ⟨none, by simp [hn]⟩
  · have hlt : c < me.ranges.length := by omega
    simp only [hn, if_false, List.getElem?_eq_getElem hlt]
    split_ifs
    · exact ⟨_, rfl⟩
    · exact ⟨_, rfl⟩

/-! ## The line parser -/

theorem asciiBytes_hash : asciiBytes "#" = [35] := by decide

theorem asciiBytes_colon : asciiBytes ":" = [58] := by decide

theorem asciiBytes_hyphen : asciiBytes "-" = [45] := by decide

/-- `bytes.HasPrefix(l, []byte("#"))` holds exactly when the first byte is
`'#'`. -/
theorem HasPrefix_hash (t : List Nat) :
    HasPrefix t (asciiBytes "#") = true ↔ t.head? = some 35 := by
  rw [asciiBytes_hash]
  cases t with
  | nil => simp [HasPrefix]
  | cons c t =>
    simp only [HasPrefix, List.isPrefixOf, List.head?_cons,
      Option.some.injEq, Bool.and_true, beq_iff_eq]
    exact eq_comm

theorem IndexByte_of_not_mem {b : List Nat} {c : Nat} (h : c ∉ b) :
    IndexByte b c = -1 := by
  simp [IndexByte, h]

/-- The first instance of `c` in `x ++ c :: y`, when `x` holds no `c`, is at
index `len(x)`. -/
theorem IndexByte_append_cons {x : List Nat} {c : Nat} (y : List Nat)
    (h : c ∉ x) : IndexByte (x ++ c :: y) c = (x.length : Int) := by
  have hmem : c ∈ x ++ c :: y := by simp
  simp [IndexByte, hmem, List.indexOf_append_of_not_mem h]

/-- The slice `s[lo:hi]` of `s = x ++ y ++ z` with `lo = len(x)` and
`hi = len(x) + len(y)` is `y`, and the bounds are in range. -/
theorem slice_middle (x y z : List Nat) (lo hi : Int)
    (hlo : lo = (x.length : Int)) (hhi : hi = (x.length : Int) + (y.length : Int)) :
    slice (x ++ (y ++ z)) lo hi = Outcome.ret y := by
  subst hlo hhi
  unfold slice
  have hcond : (0 : Int) ≤ (x.length : Int)
      ∧ (x.length : Int) ≤ (x.length : Int) + (y.length : Int)
      ∧ (x.length : Int) + (y.length : Int) ≤ ((x ++ (y ++ z)).length : Int) := by
    simp only [List.length_append, Nat.cast_add]
    omega
  rw [if_pos hcond]
  have h1 : ((x.length : Int) + (y.length : Int)).toNat = x.length + y.length := by
    omega
  have h2 : ((x.length : Int)).toNat = x.length := by omega
  rw [h1, h2, ← List.append_assoc, List.take_left' (by simp), List.drop_left]

/-- The parser on a line whose trimmed form is
`description ":" firstText "-" lastText`, the description holding no colon
and not starting with `'#'`, the first text holding no hyphen: the three
slices are in range, and `ok` tells whether both texts were parsed. -/
theorem ParseBlocklistP2PLine_fields (ParseIP : List Nat → Option IP)
    (l desc a b : List Nat)
    (ht : TrimSpace l = desc ++ 58 :: (a ++ 45 :: b))
    (hdesc : 58 ∉ desc) (hhash : desc.head? ≠ some 35) (ha : 45 ∉ a) :
    ParseBlocklistP2PLine ParseIP l =
      Outcome.ret (⟨(ParseIP a).getD [], (ParseIP b).getD [], desc⟩,
        decide (ParseIP a ≠ none ∧ ParseIP b ≠ none), none) := by
  have hne : ¬ ((desc ++ 58 :: (a ++ 45 :: b)).length = 0
      ∨ HasPrefix (desc ++ 58 :: (a ++ 45 :: b)) (asciiBytes "#") = true) := by
    rw [HasPrefix_hash]
    intro h
    rcases h with h | h
    · simp at h
    · cases desc with
      | nil => simp at h
      | cons c t => exact hhash (by simpa using h)
  have hcolon : IndexByte (desc ++ 58 :: (a ++ 45 :: b)) 58 = (desc.length : Int) :=
    IndexByte_append_cons _ hdesc
  have hcne : ¬ ((desc.length : Int) = -1) := by omega
  have hrest : slice (desc ++ 58 :: (a ++ 45 :: b)) ((desc.length : Int) + 1)
      ((desc ++ 58 :: (a ++ 45 :: b)).length : Int) = Outcome.ret (a ++ 45 :: b) := by
    have := slice_middle (desc ++ [58]) (a ++ 45 :: b) [] ((desc.length : Int) + 1)
      ((desc ++ 58 :: (a ++ 45 :: b)).length : Int)
      (by simp) (by simp only [List.length_append, List.length_cons, List.length_nil, Nat.cast_add, Nat.cast_one]; omega)
    simpa using this
  have hhyp : IndexByte (a ++ 45 :: b) 45 = (a.length : Int) :=
    IndexByte_append_cons _ ha
  have hhne : ¬ ((a.length : Int) = -1) := by omega
  have hd : slice (desc ++ 58 :: (a ++ 45 :: b)) 0 (desc.length : Int)
      = Outcome.ret desc := by
    have := slice_middle [] desc (58 :: (a ++ 45 :: b)) 0 (desc.length : Int)
      (by simp) (by simp)
    simpa using this
  have hfirst : slice (desc ++ 58 :: (a ++ 45 :: b)) ((desc.length : Int) + 1)
      ((a.length : Int) + ((desc.length : Int) + 1)) = Outcome.ret a := by
    have := slice_middle (desc ++ [58]) a (45 :: b) ((desc.length : Int) + 1)
      ((a.length : Int) + ((desc.length : Int) + 1))
      (by simp) (by simp only [List.length_append, List.length_cons, List.length_nil, Nat.cast_add, Nat.cast_one]; omega)
    simpa using this
  have hlast : slice (desc ++ 58 :: (a ++ 45 :: b))
      ((a.length : Int) + ((desc.length : Int) + 1) + 1)
      ((desc ++ 58 :: (a ++ 45 :: b)).length : Int) = Outcome.ret b := by
    have := slice_middle (desc ++ 58 :: (a ++ [45])) b []
      ((a.length : Int) + ((desc.length : Int) + 1) + 1)
      ((desc ++ 58 :: (a ++ 45 :: b)).length : Int)
      (by simp only [List.length_append, List.length_cons, List.length_nil, Nat.cast_add, Nat.cast_one]; omega)
      (by simp only [List.length_append, List.length_cons, List.length_nil, Nat.cast_add, Nat.cast_one]; omega)
    simpa using this
  unfold ParseBlocklistP2PLine
  simp only [ht, hne, if_false, hcolon, hcne, hrest, Outcome.bind, hhyp, hhne, hd,
    hfirst, hlast]
  by_cases hp : ParseIP a = none ∨ ParseIP b = none
  · rw [if_pos hp]
    have : ¬ (ParseIP a ≠ none ∧ ParseIP b ≠ none) := by tauto
    simp [this]
  · rw [if_neg hp]
    have : ParseIP a ≠ none ∧ ParseIP b ≠ none := by tauto
    simp [this]

/-! ## White space trimming -/

theorem space2_ascii_left {c x : Nat} (hc : c < 0x80) : space2 c x = false := by
  have h : (c == 0xC2) = false := by simp; omega
  simp [space2, h]

theorem space2_ascii_right {c x : Nat} (hc : c < 0x80) : space2 x c = false := by
  have h1 : (c == 0x85) = false := by simp; omega
  have h2 : (c == 0xA0) = false := by simp; omega
  simp [space2, h1, h2]

theorem space3_ascii_1 {c x y : Nat} (hc : c < 0x80) : space3 c x y = false := by
  have h1 : (c == 0xE1) = false := by simp; omega
  have h2 : (c == 0xE2) = false := by simp; omega
  have h3 : (c == 0xE3) = false := by simp; omega
  simp [space3, h1, h2, h3]

theorem space3_ascii_2 {c x y : Nat} (hc : c < 0x80) : space3 x c y = false := by
  have h1 : (c == 0x9A) = false := by simp; omega
  have h2 : (c == 0x80) = false := by simp; omega
  have h3 : (c == 0x81) = false := by simp; omega
  simp [space3, h1, h2, h3]

theorem space3_ascii_3 {c x y : Nat} (hc : c < 0x80) : space3 x y c = false := by
  have h1 : (c == 0x80) = false := by simp; omega
  have h2 : (decide (0x80 ≤ c)) = false := by simp; omega
  have h3 : (c == 0xA8) = false := by simp; omega
  have h4 : (c == 0xA9) = false := by simp; omega
  have h5 : (c == 0xAF) = false := by simp; omega
  have h6 : (c == 0x9F) = false := by simp; omega
  simp [space3, h1, h2, h3, h4, h5, h6]

theorem trimLeftSpace_length_le :
    ∀ (n : Nat) (s : List Nat), s.length ≤ n →
      (trimLeftSpace s).length ≤ s.length := by
  intro n
  induction n with
  | zero =>
    intro s hs
    have : s = [] := List.length_eq_zero.mp (by omega)
    subst this
    simp [trimLeftSpace]
  | succ n ih =>
    intro s hs
    match s with
    | [] => simp [trimLeftSpace]
    | [c0] =>
      simp only [trimLeftSpace]
      split_ifs <;> simp [trimLeftSpace]
    | [c0, c1] =>
      have h1 := ih [c1] (by simp at hs ⊢; omega)
      simp only [trimLeftSpace]
      split_ifs <;>
        (simp only [List.length_cons, List.length_nil] at h1 ⊢; omega)
    | c0 :: c1 :: c2 :: t =>
      have h2 := ih (c1 :: c2 :: t) (by simp at hs ⊢; omega)
      have h1 := ih (c2 :: t) (by simp at hs ⊢; omega)
      have h0 := ih t (by simp at hs ⊢; omega)
      simp only [trimLeftSpace]
      split_ifs <;> simp only [List.length_cons] at h0 h1 h2 ⊢ <;> omega

/-- Trimming on the left cannot give back a longer slice. -/
theorem trimLeftSpace_ne_of_shorter {s x : List Nat} (h : s.length < x.length) :
    trimLeftSpace s ≠ x := by
  intro he
  have h1 := trimLeftSpace_length_le s.length s (le_refl _)
  rw [he] at h1
  omega

/-- A slice that has no leading white space keeps having none when an ASCII
byte that is not white space, and then anything, is appended. -/
theorem trimLeftSpace_append_sep (d rest : List Nat) (c : Nat) (hc : c < 0x80)
    (hs : asciiSpace c = false) (hd : trimLeftSpace d = d) :
    trimLeftSpace (d ++ c :: rest) = d ++ c :: rest := by
  match d, hd with
  | [], _ =>
    cases rest with
    | nil => simp [trimLeftSpace, hs]
    | cons c1 t1 =>
      cases t1 with
      | nil => simp [trimLeftSpace, hs, space2_ascii_left hc]
      | cons c2 t2 =>
        simp [trimLeftSpace, hs, space2_ascii_left hc, space3_ascii_1 hc]
  | [c0], hd =>
    have h0 : asciiSpace c0 = false := by
      cases h : asciiSpace c0 with
      | false => rfl
      | true =>
        rw [trimLeftSpace] at hd
        simp only [h, if_true, if_false, Bool.false_eq_true] at hd
        exact absurd hd (trimLeftSpace_ne_of_shorter
          (by simp only [List.length_cons, List.length_nil]; omega))
    cases rest with
    | nil => simp [trimLeftSpace, h0, space2_ascii_right hc]
    | cons c2 t2 =>
      simp [trimLeftSpace, h0, space2_ascii_right hc, space3_ascii_2 hc]
  | [c0, c1], hd =>
    have h0 : asciiSpace c0 = false := by
      cases h : asciiSpace c0 with
      | false => rfl
      | true =>
        rw [trimLeftSpace] at hd
        simp only [h, if_true, if_false, Bool.false_eq_true] at hd
        exact absurd hd (trimLeftSpace_ne_of_shorter
          (by simp only [List.length_cons, List.length_nil]; omega))
    have h1 : space2 c0 c1 = false := by
      cases h : space2 c0 c1 with
      | false => rfl
      | true =>
        rw [trimLeftSpace] at hd
        simp only [h0, h, if_true, if_false, Bool.false_eq_true] at hd
        exact absurd hd (trimLeftSpace_ne_of_shorter
          (by simp only [List.length_cons, List.length_nil]; omega))
    simp [trimLeftSpace, h0, h1, space3_ascii_3 hc]
  | c0 :: c1 :: c2 :: t, hd =>
    have h0 : asciiSpace c0 = false := by
      cases h : asciiSpace c0 with
      | false => rfl
      | true =>
        rw [trimLeftSpace] at hd
        simp only [h, if_true, if_false, Bool.false_eq_true] at hd
        exact absurd hd (trimLeftSpace_ne_of_shorter
          (by simp only [List.length_cons, List.length_nil]; omega))
    have h1 : space2 c0 c1 = false := by
      cases h : space2 c0 c1 with
      | false => rfl
      | true =>
        rw [trimLeftSpace] at hd
        simp only [h0, h, if_true, if_false, Bool.false_eq_true] at hd
        exact absurd hd (trimLeftSpace_ne_of_shorter
          (by simp only [List.length_cons, List.length_nil]; omega))
    have h2 : space3 c0 c1 c2 = false := by
      cases h : space3 c0 c1 c2 with
      | false => rfl
      | true =>
        rw [trimLeftSpace] at hd
        simp only [h0, h1, h, if_true, if_false, Bool.false_eq_true] at hd
        exact absurd hd (trimLeftSpace_ne_of_shorter
          (by simp only [List.length_cons, List.length_nil]; omega))
    simp [trimLeftSpace, h0, h1, h2]

theorem trimRevSpace_length_le :
    ∀ (n : Nat) (s : List Nat), s.length ≤ n →
      (trimRevSpace s).length ≤ s.length := by
  intro n
  induction n with
  | zero =>
    intro s hs
    have : s = [] := List.length_eq_zero.mp (by omega)
    subst this
    simp [trimRevSpace]
  | succ n ih =>
    intro s hs
    match s with
    | [] => simp [trimRevSpace]
    | [c0] =>
      simp only [trimRevSpace]
      split_ifs <;> simp [trimRevSpace]
    | [c0, c1] =>
      have h1 := ih [c1] (by simp at hs ⊢; omega)
      simp only [trimRevSpace]
      split_ifs <;>
        (simp only [List.length_cons, List.length_nil] at h1 ⊢; omega)
    | c0 :: c1 :: c2 :: t =>
      have h2 := ih (c1 :: c2 :: t) (by simp at hs ⊢; omega)
      have h1 := ih (c2 :: t) (by simp at hs ⊢; omega)
      have h0 := ih t (by simp at hs ⊢; omega)
      simp only [trimRevSpace]
      split_ifs <;> simp only [List.length_cons] at h0 h1 h2 ⊢ <;> omega

/-- Trimming on the right cannot give back a longer slice. -/
theorem trimRevSpace_ne_of_shorter {s x : List Nat} (h : s.length < x.length) :
    trimRevSpace s ≠ x := by
  intro he
  have h1 := trimRevSpace_length_le s.length s (le_refl _)
  rw [he] at h1
  omega

/-- The same for the loop that trims on the right, on reversed slices. -/
theorem trimRevSpace_append_sep (d rest : List Nat) (c : Nat) (hc : c < 0x80)
    (hs : asciiSpace c = false) (hd : trimRevSpace d = d) :
    trimRevSpace (d ++ c :: rest) = d ++ c :: rest := by
  match d, hd with
  | [], _ =>
    cases rest with
    | nil => simp [trimRevSpace, hs]
    | cons c1 t1 =>
      cases t1 with
      | nil => simp [trimRevSpace, hs, space2_ascii_right hc]
      | cons c2 t2 =>
        simp [trimRevSpace, hs, space2_ascii_right hc, space3_ascii_3 hc]
  | [c0], hd =>
    have h0 : asciiSpace c0 = false := by
      cases h : asciiSpace c0 with
      | false => rfl
      | true =>
        rw [trimRevSpace] at hd
        simp only [h, if_true, if_false, Bool.false_eq_true] at hd
        exact absurd hd (trimRevSpace_ne_of_shorter
          (by simp only [List.length_cons, List.length_nil]; omega))
    cases rest with
    | nil => simp [trimRevSpace, h0, space2_ascii_left hc]
    | cons c2 t2 =>
      simp [trimRevSpace, h0, space2_ascii_left hc, space3_ascii_2 hc]
  | [c0, c1], hd =>
    have h0 : asciiSpace c0 = false := by
      cases h : asciiSpace c0 with
      | false => rfl
      | true =>
        rw [trimRevSpace] at hd
        simp only [h, if_true, if_false, Bool.false_eq_true] at hd
        exact absurd hd (trimRevSpace_ne_of_shorter
          (by simp only [List.length_cons, List.length_nil]; omega))
    have h1 : space2 c1 c0 = false := by
      cases h : space2 c1 c0 with
      | false => rfl
      | true =>
        rw [trimRevSpace] at hd
        simp only [h0, h, if_true, if_false, Bool.false_eq_true] at hd
        exact absurd hd (trimRevSpace_ne_of_shorter
          (by simp only [List.length_cons, List.length_nil]; omega))
    simp [trimRevSpace, h0, h1, space3_ascii_1 hc]
  | c0 :: c1 :: c2 :: t, hd =>
    have h0 : asciiSpace c0 = false := by
      cases h : asciiSpace c0 with
      | false => rfl
      | true =>
        rw [trimRevSpace] at hd
        simp only [h, if_true, if_false, Bool.false_eq_true] at hd
        exact absurd hd (trimRevSpace_ne_of_shorter
          (by simp only [List.length_cons, List.length_nil]; omega))
    have h1 : space2 c1 c0 = false := by
      cases h : space2 c1 c0 with
      | false => rfl
      | true =>
        rw [trimRevSpace] at hd
        simp only [h0, h, if_true, if_false, Bool.false_eq_true] at hd
        exact absurd hd (trimRevSpace_ne_of_shorter
          (by simp only [List.length_cons, List.length_nil]; omega))
    have h2 : space3 c2 c1 c0 = false := by
      cases h : space3 c2 c1 c0 with
      | false => rfl
      | true =>
        rw [trimRevSpace] at hd
        simp only [h0, h1, h, if_true, if_false, Bool.false_eq_true] at hd
        exact absurd hd (trimRevSpace_ne_of_shorter
          (by simp only [List.length_cons, List.length_nil]; omega))
    simp [trimRevSpace, h0, h1, h2]

theorem trimRightSpace_append_sep (pre b : List Nat) (c : Nat) (hc : c < 0x80)
    (hs : asciiSpace c = false) (hb : trimRightSpace b = b) :
    trimRightSpace (pre ++ c :: b) = pre ++ c :: b := by
  unfold trimRightSpace at hb ⊢
  have hb1 : trimRevSpace b.reverse = b.reverse := by
    have := congrArg List.reverse hb
    simpa using this
  have hrev : (pre ++ c :: b).reverse = b.reverse ++ c :: pre.reverse := by
    simp
  rw [hrev, trimRevSpace_append_sep b.reverse pre.reverse c hc hs hb1]
  simp

/-- A line `description ":" firstText "-" lastText` whose description has no
leading white space and whose last text has no trailing white space is left
as it is by `TrimSpace`. -/
theorem TrimSpace_line (d a b : List Nat) (hd : trimLeftSpace d = d)
    (hb : trimRightSpace b = b) :
    TrimSpace (d ++ 58 :: (a ++ 45 :: b)) = d ++ 58 :: (a ++ 45 :: b) := by
  unfold TrimSpace
  rw [trimLeftSpace_append_sep d (a ++ 45 :: b) 58 (by decide) (by decide) hd]
  have h := trimRightSpace_append_sep (d ++ 58 :: a) b 45 (by decide) (by decide) hb
  simpa using h

/-- The first instance of `c` splits the slice: nothing before it is `c`,
and it sits at index `IndexByte`. -/
theorem split_at_first {c : Nat} :
    ∀ {t : List Nat}, c ∈ t →
      ∃ x y, t = x ++ c :: y ∧ c ∉ x ∧ x.length = t.indexOf c := by
  intro t
  induction t with
  | nil => intro h; simp at h
  | cons b t ih =>
    intro h
    by_cases hb : b = c
    · subst hb
      exact ⟨[], t, rfl, by simp, by simp⟩
    · have hmem : c ∈ t := by
        rcases List.mem_cons.mp h with h | h
        · exact absurd h.symm hb
        · exact h
      obtain ⟨x, y, hxy, hx, hlen⟩ := ih hmem
      refine ⟨b :: x, y, by rw [hxy]; rfl, ?_, ?_⟩
      · intro hc
        rcases List.mem_cons.mp hc with hc | hc
        · exact hb hc.symm
        · exact hx hc
      · rw [List.indexOf_cons_ne _ hb]
        simp [hlen]

/-- Blank and comment lines: zero range, not ok, no error. -/
theorem parse_skip (ParseIP : List Nat → Option IP) (l : List Nat)
    (h : TrimSpace l = [] ∨ (TrimSpace l).head? = some 35) :
    ParseBlocklistP2PLine ParseIP l = Outcome.ret (zeroRange, false, none) := by
  have hc : (TrimSpace l).length = 0
      ∨ HasPrefix (TrimSpace l) (asciiBytes "#") = true := by
    rcases h with h | h
    · left; simp [h]
    · right; exact (HasPrefix_hash _).mpr h
  unfold ParseBlocklistP2PLine
  simp only [hc, if_true]

theorem parse_condition {l : List Nat} (hne : TrimSpace l ≠ [])
    (hhash : (TrimSpace l).head? ≠ some 35) :
    ¬ ((TrimSpace l).length = 0
      ∨ HasPrefix (TrimSpace l) (asciiBytes "#") = true) := by
  rw [HasPrefix_hash]
  intro h
  rcases h with h | h
  · exact hne (List.length_eq_zero.mp h)
  · exact hhash h

/-- No colon in the trimmed line: the error "missing colon". -/
theorem parse_missing_colon (ParseIP : List Nat → Option IP) (l : List Nat)
    (hne : TrimSpace l ≠ []) (hhash : (TrimSpace l).head? ≠ some 35)
    (hcolon : 58 ∉ TrimSpace l) :
    ParseBlocklistP2PLine ParseIP l
      = Outcome.ret (zeroRange, false, some "missing colon") := by
  unfold ParseBlocklistP2PLine
  simp only [parse_condition hne hhash, if_false, IndexByte_of_not_mem hcolon, if_true]

/-- A colon but no hyphen after the first colon: the error
"missing hyphen". -/
theorem parse_missing_hyphen (ParseIP : List Nat → Option IP)
    (l desc rest : List Nat)
    (ht : TrimSpace l = desc ++ 58 :: rest) (hdesc : 58 ∉ desc)
    (hhash : (TrimSpace l).head? ≠ some 35) (hhyphen : 45 ∉ rest) :
    ParseBlocklistP2PLine ParseIP l
      = Outcome.ret (zeroRange, false, some "missing hyphen") := by
  have hne : TrimSpace l ≠ [] := by rw [ht]; simp
  have hcond := parse_condition hne hhash
  rw [ht] at hcond
  have hcolon : IndexByte (desc ++ 58 :: rest) 58 = (desc.length : Int) :=
    IndexByte_append_cons _ hdesc
  have hcne : ¬ ((desc.length : Int) = -1) := by omega
  have hrest : slice (desc ++ 58 :: rest) ((desc.length : Int) + 1)
      ((desc ++ 58 :: rest).length : Int) = Outcome.ret rest := by
    have := slice_middle (desc ++ [58]) rest [] ((desc.length : Int) + 1)
      ((desc ++ 58 :: rest).length : Int)
      (by simp) (by simp only [List.length_append, List.length_cons, List.length_nil, Nat.cast_add, Nat.cast_one]; omega)
    simpa using this
  unfold ParseBlocklistP2PLine
  simp only [ht, hcond, if_false, hcolon, hcne, hrest, Outcome.bind,
    IndexByte_of_not_mem hhyphen, if_true]

/-- An error comes only with a missing colon or a missing hyphen. -/
theorem parse_error_only_separators (ParseIP : List Nat → Option IP)
    (l : List Nat) (r : Range) (ok : Bool) (msg : String)
    (h : ParseBlocklistP2PLine ParseIP l = Outcome.ret (r, ok, some msg)) :
    (58 ∉ TrimSpace l ∧ msg = "missing colon")
    ∨ (58 ∈ TrimSpace l
        ∧ 45 ∉ (TrimSpace l).drop ((TrimSpace l).indexOf 58 + 1)
        ∧ msg = "missing hyphen") := by
  by_cases hskip : TrimSpace l = [] ∨ (TrimSpace l).head? = some 35
  · rw [parse_skip ParseIP l hskip] at h
    simp at h
  · have hne : TrimSpace l ≠ [] := fun hh => hskip (Or.inl hh)
    have hhash : (TrimSpace l).head? ≠ some 35 := fun hh => hskip (Or.inr hh)
    by_cases hcolon : 58 ∈ TrimSpace l
    · obtain ⟨desc, rest, ht, hdesc, hlen⟩ := split_at_first hcolon
      have hdrop : (TrimSpace l).drop ((TrimSpace l).indexOf 58 + 1) = rest := by
        rw [← hlen]
        conv_lhs => rw [ht]
        have : desc ++ 58 :: rest = (desc ++ [58]) ++ rest := by simp
        rw [this]
        exact List.drop_left' (by simp)
      by_cases hhyphen : 45 ∈ rest
      · obtain ⟨a, b, hab, ha, _⟩ := split_at_first hhyphen
        rw [hab] at ht
        have hdh : desc.head? ≠ some 35 := by
          intro hd
          apply hhash
          rw [ht]
          cases desc with
          | nil => simp at hd
          | cons c t => simpa using hd
        rw [ParseBlocklistP2PLine_fields ParseIP l desc a b ht hdesc hdh ha] at h
        simp at h
      · rw [parse_missing_hyphen ParseIP l desc rest ht hdesc hhash hhyphen] at h
        right
        refine ⟨hcolon, by rw [hdrop]; exact hhyphen, ?_⟩
        simp only [Outcome.ret.injEq, Prod.mk.injEq, Option.some.injEq] at h
        exact h.2.2.symm
    · rw [parse_missing_colon ParseIP l hne hhash hcolon] at h
      left
      refine ⟨hcolon, ?_⟩
      simp only [Outcome.ret.injEq, Prod.mk.injEq, Option.some.injEq] at h
      exact h.2.2.symm

/-! ## White space around a line -/

theorem asciiSpace_lt {c : Nat} (h : asciiSpace c = true) : c < 0x80 := by
  unfold asciiSpace at h
  simp only [Bool.or_eq_true, beq_iff_eq] at h
  omega

theorem isBlankByte_asciiSpace {c : Nat} (h : isBlankByte c) :
    asciiSpace c = true := by
  unfold isBlankByte at h
  rcases h with h | h | h | h <;> subst h <;> decide

theorem trimLeftSpace_cons_ascii {c0 : Nat} (t : List Nat)
    (h : asciiSpace c0 = true) : trimLeftSpace (c0 :: t) = trimLeftSpace t := by
  match t with
  | [] => conv_lhs => rw [trimLeftSpace]; simp only [h, if_true]
  | [c1] => conv_lhs => rw [trimLeftSpace]; simp only [h, if_true]
  | c1 :: c2 :: t2 => conv_lhs => rw [trimLeftSpace]; simp only [h, if_true]

theorem trimRevSpace_cons_ascii {c0 : Nat} (t : List Nat)
    (h : asciiSpace c0 = true) : trimRevSpace (c0 :: t) = trimRevSpace t := by
  match t with
  | [] => conv_lhs => rw [trimRevSpace]; simp only [h, if_true]
  | [c1] => conv_lhs => rw [trimRevSpace]; simp only [h, if_true]
  | c1 :: c2 :: t2 => conv_lhs => rw [trimRevSpace]; simp only [h, if_true]

/-- Leading ASCII white space is dropped by the left trimming. -/
theorem trimLeftSpace_blanks_append (w x : List Nat)
    (hw : ∀ c ∈ w, asciiSpace c = true) :
    trimLeftSpace (w ++ x) = trimLeftSpace x := by
  induction w with
  | nil => rfl
  | cons c w ih =>
    rw [List.cons_append, trimLeftSpace_cons_ascii _ (hw c (by simp))]
    exact ih (fun d hd => hw d (by simp [hd]))

/-- Trailing ASCII white space (leading, on the reversed slice) is dropped by
the right trimming. -/
theorem trimRevSpace_blanks_append (w x : List Nat)
    (hw : ∀ c ∈ w, asciiSpace c = true) :
    trimRevSpace (w ++ x) = trimRevSpace x := by
  induction w with
  | nil => rfl
  | cons c w ih =>
    rw [List.cons_append, trimRevSpace_cons_ascii _ (hw c (by simp))]
    exact ih (fun d hd => hw d (by simp [hd]))

/-- The left trimming removes a prefix, and that prefix is removed whatever
follows it. -/
theorem trimLeftSpace_decomp :
    ∀ (n : Nat) (l : List Nat), l.length ≤ n →
      ∃ ws, l = ws ++ trimLeftSpace l
        ∧ ∀ x, trimLeftSpace (ws ++ x) = trimLeftSpace x := by
  intro n
  induction n with
  | zero =>
    intro l hl
    have : l = [] := List.length_eq_zero.mp (by omega)
    subst this
    exact ⟨[], by simp [trimLeftSpace], fun x => rfl⟩
  | succ n ih =>
    intro l hl
    match l, hl with
    | [], _ => exact ⟨[], by simp [trimLeftSpace], fun x => rfl⟩
    | c0 :: t0, hl =>
      cases h0 : asciiSpace c0 with
      | true =>
        obtain ⟨ws, h1, h2⟩ := ih t0 (by simp at hl; omega)
        refine ⟨c0 :: ws, ?_, ?_⟩
        · rw [trimLeftSpace_cons_ascii _ h0, List.cons_append, ← h1]
        · intro x
          rw [List.cons_append, trimLeftSpace_cons_ascii _ h0]
          exact h2 x
      | false =>
        match t0, hl with
        | [], _ =>
          refine ⟨[], ?_, fun x => rfl⟩
          rw [trimLeftSpace]
          simp [h0]
        | c1 :: t1, hl =>
          cases h1 : space2 c0 c1 with
          | true =>
            obtain ⟨ws, g1, g2⟩ := ih t1 (by simp at hl; omega)
            have hstep : ∀ y, trimLeftSpace (c0 :: c1 :: y) = trimLeftSpace y := by
              intro y
              match y with
              | [] =>
                conv_lhs =>
                  rw [trimLeftSpace]
                  simp only [h0, h1, if_true, if_false, Bool.false_eq_true]
              | c2 :: y2 =>
                conv_lhs =>
                  rw [trimLeftSpace]
                  simp only [h0, h1, if_true, if_false, Bool.false_eq_true]
            refine ⟨c0 :: c1 :: ws, ?_, ?_⟩
            · rw [hstep, List.cons_append, List.cons_append, ← g1]
            · intro x
              rw [List.cons_append, List.cons_append, hstep]
              exact g2 x
          | false =>
            match t1, hl with
            | [], _ =>
              refine ⟨[], ?_, fun x => rfl⟩
              rw [trimLeftSpace]
              simp [h0, h1]
            | c2 :: t2, hl =>
              cases h2 : space3 c0 c1 c2 with
              | true =>
                obtain ⟨ws, g1, g2⟩ := ih t2 (by simp at hl; omega)
                have hstep : ∀ y,
                    trimLeftSpace (c0 :: c1 :: c2 :: y) = trimLeftSpace y := by
                  intro y
                  conv_lhs =>
                    rw [trimLeftSpace]
                    simp only [h0, h1, h2, if_true, if_false, Bool.false_eq_true]
                refine ⟨c0 :: c1 :: c2 :: ws, ?_, ?_⟩
                · rw [hstep, List.cons_append, List.cons_append,
                    List.cons_append, ← g1]
                · intro x
                  rw [List.cons_append, List.cons_append, List.cons_append, hstep]
                  exact g2 x
              | false =>
                refine ⟨[], ?_, fun x => rfl⟩
                rw [trimLeftSpace]
                simp [h0, h1, h2]

/-- Trimming on the left twice is trimming once. -/
theorem trimLeftSpace_idem (l : List Nat) :
    trimLeftSpace (trimLeftSpace l) = trimLeftSpace l := by
  obtain ⟨ws, h1, h2⟩ := trimLeftSpace_decomp l.length l (le_refl _)
  have h3 := h2 (trimLeftSpace l)
  rw [← h1] at h3
  exact h3.symm

/-- A slice that is not empty and has no leading white space keeps having
none when an ASCII byte, and then anything, is appended. -/
theorem trimLeftSpace_append_ascii (d rest : List Nat) (c : Nat) (hc : c < 0x80)
    (hne : d ≠ []) (hd : trimLeftSpace d = d) :
    trimLeftSpace (d ++ c :: rest) = d ++ c :: rest := by
  match d, hd, hne with
  | [], _, hne => exact absurd rfl hne
  | [c0], hd, _ =>
    have h0 : asciiSpace c0 = false := by
      cases h : asciiSpace c0 with
      | false => rfl
      | true =>
        rw [trimLeftSpace] at hd
        simp only [h, if_true, if_false, Bool.false_eq_true] at hd
        exact absurd hd (trimLeftSpace_ne_of_shorter
          (by simp only [List.length_cons, List.length_nil]; omega))
    cases rest with
    | nil => simp [trimLeftSpace, h0, space2_ascii_right hc]
    | cons c2 t2 =>
      simp [trimLeftSpace, h0, space2_ascii_right hc, space3_ascii_2 hc]
  | [c0, c1], hd, _ =>
    have h0 : asciiSpace c0 = false := by
      cases h : asciiSpace c0 with
      | false => rfl
      | true =>
        rw [trimLeftSpace] at hd
        simp only [h, if_true, if_false, Bool.false_eq_true] at hd
        exact absurd hd (trimLeftSpace_ne_of_shorter
          (by simp only [List.length_cons, List.length_nil]; omega))
    have h1 : space2 c0 c1 = false := by
      cases h : space2 c0 c1 with
      | false => rfl
      | true =>
        rw [trimLeftSpace] at hd
        simp only [h0, h, if_true, if_false, Bool.false_eq_true] at hd
        exact absurd hd (trimLeftSpace_ne_of_shorter
          (by simp only [List.length_cons, List.length_nil]; omega))
    simp [trimLeftSpace, h0, h1, space3_ascii_3 hc]
  | c0 :: c1 :: c2 :: t, hd, _ =>
    have h0 : asciiSpace c0 = false := by
      cases h : asciiSpace c0 with
      | false => rfl
      | true =>
        rw [trimLeftSpace] at hd
        simp only [h, if_true, if_false, Bool.false_eq_true] at hd
        exact absurd hd (trimLeftSpace_ne_of_shorter
          (by simp only [List.length_cons, List.length_nil]; omega))
    have h1 : space2 c0 c1 = false := by
      cases h : space2 c0 c1 with
      | false => rfl
      | true =>
        rw [trimLeftSpace] at hd
        simp only [h0, h, if_true, if_false, Bool.false_eq_true] at hd
        exact absurd hd (trimLeftSpace_ne_of_shorter
          (by simp only [List.length_cons, List.length_nil]; omega))
    have h2 : space3 c0 c1 c2 = false := by
      cases h : space3 c0 c1 c2 with
      | false => rfl
      | true =>
        rw [trimLeftSpace] at hd
        simp only [h0, h1, h, if_true, if_false, Bool.false_eq_true] at hd
        exact absurd hd (trimLeftSpace_ne_of_shorter
          (by simp only [List.length_cons, List.length_nil]; omega))
    simp [trimLeftSpace, h0, h1, h2]

/-- Trailing ASCII white space does not change what the left trimming
removes: the result is empty if the slice was all white space, and the
trimmed slice followed by the trailing white space otherwise. -/
theorem trimLeftSpace_append_blanks (l w : List Nat)
    (hw : ∀ c ∈ w, asciiSpace c = true) :
    trimLeftSpace (l ++ w)
      = if trimLeftSpace l = [] then [] else trimLeftSpace l ++ w := by
  obtain ⟨ws, h1, h2⟩ := trimLeftSpace_decomp l.length l (le_refl _)
  have hidem := trimLeftSpace_idem l
  have hstep : trimLeftSpace (l ++ w) = trimLeftSpace (trimLeftSpace l ++ w) := by
    conv_lhs => rw [h1, List.append_assoc]
    exact h2 _
  rw [hstep]
  by_cases he : trimLeftSpace l = []
  · rw [if_pos he, he, List.nil_append]
    have := trimLeftSpace_blanks_append w [] hw
    rw [List.append_nil] at this
    rw [this]
    rfl
  · rw [if_neg he]
    cases w with
    | nil => rw [List.append_nil]; exact hidem
    | cons c rest =>
      exact trimLeftSpace_append_ascii (trimLeftSpace l) rest c
        (asciiSpace_lt (hw c (by simp))) he hidem

/-- ASCII white space around a slice does not change its trimmed form. -/
theorem TrimSpace_blanks (w1 l w2 : List Nat)
    (h1 : ∀ c ∈ w1, asciiSpace c = true) (h2 : ∀ c ∈ w2, asciiSpace c = true) :
    TrimSpace (w1 ++ l ++ w2) = TrimSpace l := by
  unfold TrimSpace
  rw [List.append_assoc, trimLeftSpace_blanks_append w1 _ h1,
    trimLeftSpace_append_blanks l w2 h2]
  by_cases he : trimLeftSpace l = []
  · rw [if_pos he, he]
  · rw [if_neg he]
    unfold trimRightSpace
    rw [List.reverse_append,
      trimRevSpace_blanks_append w2.reverse _
        (fun c hc => h2 c (List.mem_reverse.mp hc))]

/-! ## The public lookup -/

theorem lookup_some_lt {me : IPList} {p : IP} {j : Nat}
    (h : lookup me p = Outcome.ret (some j)) : j < me.ranges.length := by
  obtain ⟨r, hr, _⟩ := lookup_some_contains me.ranges p j h
  exact (List.getElem?_eq_some.mp hr).1

/-- A length that is neither 4 nor 16 has no 4-byte form. -/
theorem To4_none {ip : IP} (h4 : ip.length ≠ 4) (h16 : ip.length ≠ 16) :
    To4 ip = none := by
  simp [To4, h4, h16]

theorem To16_none {ip : IP} (h4 : ip.length ≠ 4) (h16 : ip.length ≠ 16) :
    To16 ip = none := by
  simp [To16, h4, h16]

/-- `Lookup` when the address has both forms and the 4-byte search finds
nothing: the result is that of the 16-byte search. -/
theorem Lookup_of_first_none {t : IPList} {ip v4 v6 : IP}
    (h4 : To4 ip = some v4) (h16 : To16 ip = some v6)
    (hnone : lookup t v4 = Outcome.ret none) :
    Lookup (some t) ip = lookup t v6 := by
  unfold Lookup
  simp only [h4, h16, hnone]

/-- `Lookup` when the 4-byte search finds a range. -/
theorem Lookup_of_first_some {t : IPList} {ip v4 : IP} {j : Nat}
    (h4 : To4 ip = some v4) (hsome : lookup t v4 = Outcome.ret (some j)) :
    Lookup (some t) ip = Outcome.ret (some j) := by
  unfold Lookup
  simp only [h4, hsome]

/-- `Lookup` when the address has no 4-byte form. -/
theorem Lookup_of_no_v4 {t : IPList} {ip : IP} (h4 : To4 ip = none) :
    Lookup (some t) ip
      = match To16 ip with
        | some v6 => lookup t v6
        | none => Outcome.ret none := by
  unfold Lookup
  simp only [h4]

/-- Whatever `Lookup` returns was returned by the search step on the 4-byte
form or on the 16-byte form of the address. -/
theorem Lookup_some_from_lookup {t : IPList} {ip : IP} {j : Nat}
    (h : Lookup (some t) ip = Outcome.ret (some j)) :
    (∃ v4, To4 ip = some v4 ∧ lookup t v4 = Outcome.ret (some j))
    ∨ (∃ v6, To16 ip = some v6 ∧ lookup t v6 = Outcome.ret (some j)) := by
  cases h4 : To4 ip with
  | none =>
    rw [Lookup_of_no_v4 h4] at h
    cases h16 : To16 ip with
    | none => simp [h16] at h
    | some v6 =>
      simp only [h16] at h
      exact Or.inr ⟨v6, rfl, h⟩
  | some v4 =>
    obtain ⟨res, hres⟩ := lookup_returns t v4
    cases res with
    | some i =>
      rw [Lookup_of_first_some h4 hres] at h
      simp only [Outcome.ret.injEq, Option.some.injEq] at h
      subst h
      exact Or.inl ⟨v4, rfl, hres⟩
    | none =>
      cases h16 : To16 ip with
      | none =>
        unfold Lookup at h
        simp [h4, h16, hres] at h
      | some v6 =>
        rw [Lookup_of_first_none h4 h16 hres] at h
        exact Or.inr ⟨v6, rfl, h⟩

/-- `Lookup` always returns. -/
theorem Lookup_returns (me : Option IPList) (ip : IP) :
    ∃ res, Lookup me ip = Outcome.ret res := by
  cases me with
  | none => exact ⟨none, rfl⟩
  | some t =>
    cases h4 : To4 ip with
    | none =>
      rw [Lookup_of_no_v4 h4]
      cases h16 : To16 ip with
      | none => exact ⟨none, rfl⟩
      | some v6 => exact lookup_returns t v6
    | some v4 =>
      obtain ⟨res, hres⟩ := lookup_returns t v4
      cases res with
      | some i => exact ⟨some i, Lookup_of_first_some h4 hres⟩
      | none =>
        cases h16 : To16 ip with
        | none =>
          refine ⟨none, ?_⟩
          unfold Lookup
          simp [h4, h16, hres]
        | some v6 =>
          rw [Lookup_of_first_none h4 h16 hres]
          exact lookup_returns t v6

/-- In a table without overlaps whose ranges have `first <= last`, the search
step returns nil exactly when no range contains the probe. -/
theorem lookup_none_iff (rs : List Range) (p : IP)
    (hle : firstLeLast rs) (hno : nonOverlapping rs) :
    lookup { ranges := rs } p = Outcome.ret none ↔ ∀ r ∈ rs, ¬ r.contains p := by
  constructor
  · intro h r hr hc
    obtain ⟨j, hj, hjr⟩ := List.getElem_of_mem hr
    have hj2 : rs[j]? = some r := by rw [List.getElem?_eq_getElem hj, hjr]
    rw [lookup_of_contains rs p j r hle hno hj2 hc] at h
    simp at h
  · intro h
    obtain ⟨res, hres⟩ := lookup_returns { ranges := rs } p
    cases res with
    | none => exact hres
    | some j =>
      obtain ⟨r, hr, hc⟩ := lookup_some_contains rs p j hres
      exact absurd hc (h r (List.getElem?_mem hr))

/-- In such a table the search step returns the pointer to range `j` exactly
when range `j` contains the probe. -/
theorem lookup_some_iff (rs : List Range) (p : IP) (j : Nat)
    (hle : firstLeLast rs) (hno : nonOverlapping rs) :
    lookup { ranges := rs } p = Outcome.ret (some j)
      ↔ ∃ r, rs[j]? = some r ∧ r.contains p := by
  constructor
  · exact lookup_some_contains rs p j
  · rintro ⟨r, hr, hc⟩
    exact lookup_of_contains rs p j r hle hno hr hc

/-! ## The candidate index -/

/-- The linear scan returns the lowest index of the window at which the
predicate holds. -/
theorem linearSearch_eq (P : Nat → Bool) :
    ∀ (k i c : Nat), i ≤ c → c < i + k → P c = true →
      (∀ m, i ≤ m → m < c → P m = false) → linearSearch P k i = c := by
  intro k
  induction k with
  | zero => intro i c h1 h2; omega
  | succ k ih =>
    intro i c h1 h2 hc hlow
    rw [linearSearch]
    by_cases hi : i = c
    · subst hi
      simp [hc]
    · have hPi : P i = false := hlow i (le_refl _) (by omega)
      simp only [hPi, Bool.false_eq_true, if_false]
      exact ih (i + 1) c (by omega) (by omega) hc
        (fun m hm1 hm2 => hlow m (by omega) hm2)

/-- On the indices of the table the predicate of `lookup` is the candidate
test of the specification. -/
theorem lookupPred_eq_isCandidate (rs : List Range) (p : IP) {i : Nat}
    (hi : i < rs.length) :
    lookupPred { ranges := rs } p i = Outcome.ret (isCandidate rs p i) := by
  unfold lookupPred isCandidate
  by_cases h : i + 1 ≥ rs.length
  · have heq : i + 1 = rs.length := by omega
    simp [h, heq]
  · have hlt : i + 1 < rs.length := by omega
    have hne : ¬ i + 1 = rs.length := by omega
    simp [h, hne, List.getElem?_eq_getElem hlt]

/-- In a table sorted by first, a candidate is followed by candidates. -/
theorem isCandidate_succ (rs : List Range) (p : IP) (hs : sortedByFirst rs)
    {i : Nat} (hi : i + 1 < rs.length) (hc : isCandidate rs p i = true) :
    isCandidate rs p (i + 1) = true := by
  have hpair := List.pairwise_iff_getElem.mp hs
  unfold isCandidate at hc ⊢
  have hne : ¬ i + 1 = rs.length := by omega
  simp only [hne, decide_False, Bool.false_or, List.getElem?_eq_getElem hi,
    decide_eq_true_eq] at hc
  by_cases h2 : i + 1 + 1 = rs.length
  · simp [h2]
  · have hlt : i + 1 + 1 < rs.length := by omega
    have hle := hpair (i + 1) (i + 1 + 1) hi hlt (by omega)
    have := bytesCompare_lt_le_trans hc hle
    simp [h2, List.getElem?_eq_getElem hlt, this]

theorem isCandidate_mono (rs : List Range) (p : IP) (hs : sortedByFirst rs)
    {i : Nat} (hc : isCandidate rs p i = true) :
    ∀ d, i + d < rs.length → isCandidate rs p (i + d) = true := by
  intro d
  induction d with
  | zero => intro _; exact hc
  | succ d ih =>
    intro hlt
    have hlt2 : i + d + 1 < rs.length := hlt
    have hprev := ih (by omega)
    exact isCandidate_succ rs p hs hlt2 hprev

/-- On a non-empty table sorted by first, `sort.Search` returns the lowest
candidate index, which is an index of the table. -/
theorem sortSearch_lowest_candidate (rs : List Range) (p : IP) (hne : rs ≠ [])
    (hs : sortedByFirst rs) :
    ∃ c, sortSearch rs.length (lookupPred { ranges := rs } p) = Outcome.ret c
      ∧ c < rs.length ∧ isCandidate rs p c = true
      ∧ ∀ i, i < c → isCandidate rs p i = false := by
  have hpos : 0 < rs.length := List.length_pos.mpr hne
  obtain ⟨c, hc0, hcn, hlo, hhi⟩ := sortSearch_lookupPred { ranges := rs } p
  dsimp only at hc0 hcn hlo hhi
  have hlt : c < rs.length := by
    rcases Nat.lt_or_ge c rs.length with h | h
    · exact h
    · exfalso
      have hcn2 : c = rs.length := by omega
      rcases hlo with hlo | hlo
      · omega
      · rw [hcn2, lookupPred_eq_isCandidate rs p (by omega)] at hlo
        have : isCandidate rs p (rs.length - 1) = true := by
          unfold isCandidate
          have : rs.length - 1 + 1 = rs.length := by omega
          simp [this]
        rw [this] at hlo
        simp at hlo
  have hcand : isCandidate rs p c = true := by
    rcases hhi with hhi | hhi
    · omega
    · rw [lookupPred_eq_isCandidate rs p hlt] at hhi
      simpa using hhi
  refine ⟨c, hc0, hlt, hcand, ?_⟩
  intro i hi
  rcases hlo with hlo | hlo
  · omega
  · rw [lookupPred_eq_isCandidate rs p (by omega)] at hlo
    have hfalse : isCandidate rs p (c - 1) = false := by simpa using hlo
    cases hci : isCandidate rs p i with
    | false => rfl
    | true =>
      have := isCandidate_mono rs p hs hci (c - 1 - i) (by omega)
      have hidx : i + (c - 1 - i) = c - 1 := by omega
      rw [hidx, hfalse] at this
      simp at this

/-! ## IPv4-mapped tables -/

theorem isMapped_IPv4 (a b c d : Nat) : isMapped (IPv4 a b c d) := by
  unfold isMapped IPv4 v4InV6Prefix
  simp

/-- A mapped address is `IPv4(a, b, c, d)` for its last four bytes. -/
theorem isMapped_eq {ip : IP} (h : isMapped ip) :
    ∃ a b c d, ip = IPv4 a b c d := by
  obtain ⟨hlen, htake⟩ := h
  have hsplit : ip = v4InV6Prefix ++ ip.drop 12 := by
    rw [← htake, List.take_append_drop]
  have hdlen : (ip.drop 12).length = 4 := by simp [hlen]
  match hd : ip.drop 12, hdlen with
  | [a, b, c, d], _ =>
    refine ⟨a, b, c, d, ?_⟩
    rw [hsplit, hd]
    rfl

theorem To4_IPv4 (a b c d : Nat) : To4 (IPv4 a b c d) = some [a, b, c, d] := by
  simp [To4, IPv4]

theorem To16_IPv4 (a b c d : Nat) : To16 (IPv4 a b c d) = some (IPv4 a b c d) := by
  simp [To16, IPv4]

/-- No 4-byte address lies between two mapped bounds in the order of
`bytes.Compare`: both bounds begin with four zero bytes, so the address would
have to be above `0.0.0.0` and at most `0.0.0.0`. -/
theorem not_contains_of_mapped (a b c d a2 b2 c2 d2 p0 p1 p2 p3 : Nat)
    (desc : List Nat) :
    ¬ Range.contains
        { First := IPv4 a b c d, Last := IPv4 a2 b2 c2 d2, Description := desc }
        [p0, p1, p2, p3] := by
  unfold Range.contains IPv4
  simp only [bytesCompare]
  intro h
  obtain ⟨h1, h2⟩ := h
  by_cases e0 : 0 < p0
  · simp [e0] at h2
  · by_cases e1 : 0 < p1
    · simp [e0, e1] at h2
    · by_cases e2 : 0 < p2
      · simp [e0, e1, e2] at h2
      · by_cases e3 : 0 < p3
        · simp [e0, e1, e2, e3] at h2
        · simp [e0, e1, e2, e3] at h1

/-- On a table of mapped bounds the search step finds nothing for a 4-byte
probe. -/
theorem lookup_v4_in_mapped (rs : List Range) (hm : mappedBounds rs) (v4 : IP)
    (hv : v4.length = 4) :
    lookup { ranges := rs } v4 = Outcome.ret none := by
  obtain ⟨res, hres⟩ := lookup_returns { ranges := rs } v4
  cases res with
  | none => exact hres
  | some j =>
    exfalso
    obtain ⟨r, hr, hc⟩ := lookup_some_contains rs v4 j hres
    obtain ⟨hF, hL⟩ := hm r (List.getElem?_mem hr)
    obtain ⟨a, b, c, d, hFe⟩ := isMapped_eq hF
    obtain ⟨a2, b2, c2, d2, hLe⟩ := isMapped_eq hL
    match v4, hv with
    | [p0, p1, p2, p3], _ =>
      have hr2 : r = { First := IPv4 a b c d, Last := IPv4 a2 b2 c2 d2,
                       Description := r.Description } := by
        cases r
        simp only at hFe hLe
        simp [hFe, hLe]
      rw [hr2] at hc
      exact not_contains_of_mapped a b c d a2 b2 c2 d2 p0 p1 p2 p3 _ hc

/-! ## The number of comparisons -/

/-- Halving an interval takes one off the logarithm of its size. -/
theorem log_half_bound {m k : Nat} (h1 : 1 ≤ k) (h2 : k ≤ m / 2) :
    Nat.log 2 k + 1 ≤ Nat.log 2 m := by
  have hmono : Nat.log 2 k ≤ Nat.log 2 (m / 2) := Nat.log_mono_right h2
  rw [Nat.log_div_base] at hmono
  have hpos : 0 < Nat.log 2 m := Nat.log_pos (by norm_num) (by omega)
  omega

/-- The counted predicate returns what the predicate returns, after at most
one comparison. -/
theorem lookupPredCounted_ret (me : IPList) (ip : IP) (i : Nat) :
    ∃ b q, lookupPredCounted me ip i = Outcome.ret (b, q)
      ∧ lookupPred me ip i = Outcome.ret b ∧ q ≤ 1 := by
  unfold lookupPredCounted lookupPred
  by_cases h : i + 1 ≥ me.ranges.length
  · exact ⟨true, 0, by simp [h], by simp [h], by omega⟩
  · have hlt : i + 1 < me.ranges.length := by omega
    simp only [h, if_false, List.getElem?_eq_getElem hlt]
    exact ⟨_, 1, rfl, rfl, le_refl _⟩

/-- The counted loop returns the index the loop returns; the predicate is
called at most `floor(log2 (j - i)) + 1` times (not at all on an empty
interval), and the comparisons made are at most as many as the calls. -/
theorem searchLoopCounted_spec (me : IPList) (ip : IP) :
    ∀ (fuel i j e c : Nat), i ≤ j → j - i ≤ fuel →
      ∃ r k q, searchLoopCounted (lookupPredCounted me ip) fuel i j e c
            = Outcome.ret (r, e + k, c + q)
        ∧ searchLoop (lookupPred me ip) fuel i j = Outcome.ret r
        ∧ q ≤ k ∧ (i < j → k ≤ Nat.log 2 (j - i) + 1) ∧ (¬ i < j → k = 0) := by
  intro fuel
  induction fuel with
  | zero =>
    intro i j e c hij hfuel
    have hnlt : ¬ i < j := by omega
    refine ⟨i, 0, 0, ?_, ?_, le_refl _, fun h => absurd h hnlt, fun _ => rfl⟩
    · rw [searchLoopCounted]; simp [hnlt]
    · rw [searchLoop]; simp [hnlt]
  | succ fuel ih =>
    intro i j e c hij hfuel
    by_cases hlt : i < j
    · obtain ⟨b, q, hb, hb2, hq⟩ := lookupPredCounted_ret me ip ((i + j) / 2)
      cases b with
      | false =>
        obtain ⟨r, k, q2, h1, h2, h3, h4, h5⟩ :=
          ih ((i + j) / 2 + 1) j (e + 1) (c + q) (by omega) (by omega)
        refine ⟨r, k + 1, q + q2, ?_, ?_, by omega, ?_, fun h => absurd hlt h⟩
        · rw [searchLoopCounted]
          simp only [hlt, if_true, hb]
          rw [h1]
          have e1 : e + 1 + k = e + (k + 1) := by omega
          have e2 : c + q + q2 = c + (q + q2) := by omega
          rw [e1, e2]
        · rw [searchLoop]
          simp only [hlt, if_true, hb2]
          exact h2
        · intro _
          by_cases hin : (i + j) / 2 + 1 < j
          · have hk := h4 hin
            have hb := log_half_bound (m := j - i) (k := j - ((i + j) / 2 + 1))
              (by omega) (by omega)
            omega
          · have hk := h5 hin
            omega
      | true =>
        obtain ⟨r, k, q2, h1, h2, h3, h4, h5⟩ :=
          ih i ((i + j) / 2) (e + 1) (c + q) (by omega) (by omega)
        refine ⟨r, k + 1, q + q2, ?_, ?_, by omega, ?_, fun h => absurd hlt h⟩
        · rw [searchLoopCounted]
          simp only [hlt, if_true, hb]
          rw [h1]
          have e1 : e + 1 + k = e + (k + 1) := by omega
          have e2 : c + q + q2 = c + (q + q2) := by omega
          rw [e1, e2]
        · rw [searchLoop]
          simp only [hlt, if_true, hb2]
          exact h2
        · intro _
          by_cases hin : i < (i + j) / 2
          · have hk := h4 hin
            have hb := log_half_bound (m := j - i) (k := (i + j) / 2 - i)
              (by omega) (by omega)
            omega
          · have hk := h5 hin
            omega
    · refine ⟨i, 0, 0, ?_, ?_, le_refl _, fun h => absurd h hlt, fun _ => rfl⟩
      · rw [searchLoopCounted]; simp [hlt]
      · rw [searchLoop]; simp [hlt]

/-- The counted search step returns what the search step returns; the
predicate is called at most `floor(log2 n) + 1` times on a table of
`n >= 1` ranges (not at all on an empty table), and the comparisons are at
most two more than the calls. -/
theorem lookupCounted_spec (me : IPList) (ip : IP) :
    ∃ res evals cmps, lookupCounted me ip = Outcome.ret (res, evals, cmps)
      ∧ lookup me ip = Outcome.ret res
      ∧ (0 < me.ranges.length → evals ≤ Nat.log 2 me.ranges.length + 1)
      ∧ (me.ranges.length = 0 → evals = 0)
      ∧ cmps ≤ evals + 2 := by
  obtain ⟨r, k, q, h1, h2, h3, h4, h5⟩ :=
    searchLoopCounted_spec me ip me.ranges.length 0 me.ranges.length 0 0
      (Nat.zero_le _) (by omega)
  simp only [Nat.zero_add, Nat.sub_zero] at h1 h4
  obtain ⟨c, hc0, hcn, -, -⟩ := sortSearch_lookupPred me ip
  have hrc : r = c := by
    unfold sortSearch at hc0
    rw [h2] at hc0
    simpa using hc0
  subst hrc
  have hev0 : me.ranges.length = 0 → k = 0 := fun h => h5 (by omega)
  unfold lookupCounted lookup sortSearch
  simp only [h1, h2]
  by_cases hn : r = me.ranges.length
  · exact ⟨none, k, q, by simp [hn], by simp [hn], h4, hev0, by omega⟩
  · have hlt : r < me.ranges.length := by omega
    simp only [hn, if_false, List.getElem?_eq_getElem hlt]
    by_cases hF : bytesCompare ip me.ranges[r].First < 0
    · exact ⟨none, k, q + 1, by simp [hF], by simp [hF], h4, hev0, by omega⟩
    · by_cases hL : bytesCompare ip me.ranges[r].Last > 0
      · exact ⟨none, k, q + 2, by simp [hF, hL], by simp [hF, hL], h4, hev0,
          by omega⟩
      · exact ⟨some r, k, q + 2, by simp [hF, hL], by simp [hF, hL], h4, hev0,
          by omega⟩

/-- The counted `Lookup` returns what `Lookup` returns, after at most
`2 * (floor(log2 n) + 3)` comparisons on a table of `n >= 1` ranges. -/
theorem LookupCounted_spec (t : IPList) (ip : IP) (hn : 0 < t.ranges.length) :
    ∃ res cmps, LookupCounted (some t) ip = Outcome.ret (res, cmps)
      ∧ Lookup (some t) ip = Outcome.ret res
      ∧ cmps ≤ 2 * (Nat.log 2 t.ranges.length + 3) := by
  unfold LookupCounted Lookup
  cases h4 : To4 ip with
  | none =>
    cases h16 : To16 ip with
    | none => exact ⟨none, 0, rfl, rfl, Nat.zero_le _⟩
    | some v6 =>
      obtain ⟨res, ev, cm, h1, h2, h3, -, h5⟩ := lookupCounted_spec t v6
      have := h3 hn
      exact ⟨res, 0 + cm, by simp [h1], by simp [h2], by omega⟩
  | some v4 =>
    obtain ⟨res, ev, cm, h1, h2, h3, -, h5⟩ := lookupCounted_spec t v4
    have hb := h3 hn
    cases res with
    | some i => exact ⟨some i, cm, by simp [h1], by simp [h2], by omega⟩
    | none =>
      cases h16 : To16 ip with
      | none => exact ⟨none, cm, by simp [h1], by simp [h2], by omega⟩
      | some v6 =>
        obtain ⟨res6, ev6, cm6, g1, g2, g3, -, g5⟩ := lookupCounted_spec t v6
        have hb6 := g3 hn
        exact ⟨res6, cm + cm6, by simp [h1, g1], by simp [h2, g2], by omega⟩

/-! ## Totality of the parser -/

theorem mem_of_IndexByte_ne {b : List Nat} {c : Nat} (h : IndexByte b c ≠ -1) :
    c ∈ b := by
  by_contra hc
  exact h (IndexByte_of_not_mem hc)

/-- The parser returns on every line, in one of four ways. -/
theorem parse_cases (ParseIP : List Nat → Option IP) (l : List Nat) :
    ParseBlocklistP2PLine ParseIP l = Outcome.ret (zeroRange, false, none)
    ∨ ParseBlocklistP2PLine ParseIP l
        = Outcome.ret (zeroRange, false, some "missing colon")
    ∨ ParseBlocklistP2PLine ParseIP l
        = Outcome.ret (zeroRange, false, some "missing hyphen")
    ∨ ∃ r ok, ParseBlocklistP2PLine ParseIP l = Outcome.ret (r, ok, none) := by
  by_cases hskip : TrimSpace l = [] ∨ (TrimSpace l).head? = some 35
  · exact Or.inl (parse_skip ParseIP l hskip)
  · have hne : TrimSpace l ≠ [] := fun hh => hskip (Or.inl hh)
    have hhash : (TrimSpace l).head? ≠ some 35 := fun hh => hskip (Or.inr hh)
    by_cases hcolon : 58 ∈ TrimSpace l
    · obtain ⟨desc, rest, ht, hdesc, _⟩ := split_at_first hcolon
      by_cases hhyphen : 45 ∈ rest
      · obtain ⟨a, b, hab, ha, _⟩ := split_at_first hhyphen
        rw [hab] at ht
        have hdh : desc.head? ≠ some 35 := by
          intro hd
          apply hhash
          rw [ht]
          cases desc with
          | nil => simp at hd
          | cons c t => simpa using hd
        exact Or.inr (Or.inr (Or.inr ⟨_, _,
          ParseBlocklistP2PLine_fields ParseIP l desc a b ht hdesc hdh ha⟩))
      · exact Or.inr (Or.inr (Or.inl
          (parse_missing_hyphen ParseIP l desc rest ht hdesc hhash hhyphen)))
    · exact Or.inr (Or.inl (parse_missing_colon ParseIP l hne hhash hcolon))

/-- The bounds of the first slice expression, `l[colon+1:]`. -/
theorem lineRest_bounds (l : List Nat) (hc : lineColon l ≠ -1) :
    0 ≤ lineColon l ∧ lineColon l + 1 ≤ ((TrimSpace l).length : Int)
      ∧ slice (TrimSpace l) (lineColon l + 1) ((TrimSpace l).length : Int)
          = Outcome.ret (lineRest l) := by
  unfold lineRest
  unfold lineColon at hc ⊢
  obtain ⟨x, y, ht, hx, _⟩ := split_at_first (mem_of_IndexByte_ne hc)
  rw [ht, IndexByte_append_cons y hx]
  have hdrop : (x ++ 58 :: y).drop ((x.length : Int).toNat + 1) = y := by
    have e : (x.length : Int).toNat + 1 = (x ++ [58]).length := by simp
    have e2 : x ++ 58 :: y = (x ++ [58]) ++ y := by simp
    rw [e, e2, List.drop_left]
  rw [hdrop]
  refine ⟨by omega, ?_, ?_⟩
  · simp only [List.length_append, List.length_cons, Nat.cast_add, Nat.cast_one]
    omega
  · have := slice_middle (x ++ [58]) y [] ((x.length : Int) + 1)
      ((x ++ 58 :: y).length : Int)
      (by simp) (by simp only [List.length_append, List.length_cons, List.length_nil, Nat.cast_add, Nat.cast_one]; omega)
    simpa using this

/-- The bounds of the other three slice expressions, `l[:colon]`,
`l[colon+1:hyphen]` and `l[hyphen+1:]`. -/
theorem lineHyphen_bounds (l : List Nat) (hc : lineColon l ≠ -1)
    (hh : IndexByte (lineRest l) 45 ≠ -1) :
    0 ≤ lineColon l ∧ lineColon l ≤ ((TrimSpace l).length : Int)
      ∧ lineColon l + 1 ≤ lineHyphen l
      ∧ lineHyphen l ≤ ((TrimSpace l).length : Int)
      ∧ lineHyphen l + 1 ≤ ((TrimSpace l).length : Int) := by
  unfold lineHyphen
  unfold lineRest at hh ⊢
  unfold lineColon at hc hh ⊢
  obtain ⟨x, y, ht, hx, _⟩ := split_at_first (mem_of_IndexByte_ne hc)
  rw [ht, IndexByte_append_cons y hx] at hh ⊢
  have hdrop : (x ++ 58 :: y).drop ((x.length : Int).toNat + 1) = y := by
    have e : (x.length : Int).toNat + 1 = (x ++ [58]).length := by simp
    have e2 : x ++ 58 :: y = (x ++ [58]) ++ y := by simp
    rw [e, e2, List.drop_left]
  rw [hdrop] at hh ⊢
  obtain ⟨a, b, hab, ha, _⟩ := split_at_first (mem_of_IndexByte_ne hh)
  rw [hab, IndexByte_append_cons b ha]
  simp only [List.length_append, List.length_cons, Nat.cast_add, Nat.cast_one]
  omega

/-! ## The claims -/

/-- C1, the code at failing inputs.  The table `mappedThenV6` has 16-byte
bounds, `first <= last`, is sorted by first and has no overlap; the 16-byte
address `::ffff:10.0.0.7` lies in its range 0 and not in its range 1, yet
`Lookup` returns the pointer to range 1: the preliminary search with the
4-byte form `10.0.0.7` compares it with the 16-byte bounds `900::` and
`bff:...:ffff` and matches.  Likewise the table `zeroNet` has 4-byte bounds
and the 4-byte address `1.2.3.4` lies in none of its ranges, yet `Lookup`
returns the pointer to range 0, matched by the 16-byte form of the
address. -/
theorem Lookup_matches_across_families :
    (boundsOfLength 16 mappedThenV6 ∧ firstLeLast mappedThenV6
      ∧ sortedByFirst mappedThenV6 ∧ nonOverlapping mappedThenV6
      ∧ (IPv4 10 0 0 7).length = 16
      ∧ (∃ r, mappedThenV6[0]? = some r ∧ r.contains (IPv4 10 0 0 7))
      ∧ (∃ r, mappedThenV6[1]? = some r ∧ ¬ r.contains (IPv4 10 0 0 7))
      ∧ Lookup (New mappedThenV6) (IPv4 10 0 0 7) = Outcome.ret (some 1))
    ∧ (boundsOfLength 4 zeroNet ∧ firstLeLast zeroNet
      ∧ sortedByFirst zeroNet ∧ nonOverlapping zeroNet
      ∧ (∀ r ∈ zeroNet, ¬ r.contains [1, 2, 3, 4])
      ∧ Lookup (New zeroNet) [1, 2, 3, 4] = Outcome.ret (some 0)) := by
  decide

/-- C2. Dual-representation lookup: in a table of 4-byte ranges, sorted by
first, without overlaps and with `first <= last`, an address whose 4-byte
form `ip.To4()` lies in the range at index `j` is answered by `Lookup` with
the pointer to that range, whether the caller passed the 4-byte or the
16-byte IPv4-mapped form. -/
theorem Lookup_dual_representation (rs : List Range) (ip v4 : IP) (j : Nat)
    (r : Range)
    (_hlen : boundsOfLength 4 rs) (_hsorted : sortedByFirst rs)
    (hno : nonOverlapping rs) (hle : firstLeLast rs)
    (hv4 : To4 ip = some v4) (hj : rs[j]? = some r) (hc : r.contains v4) :
    Lookup (New rs) ip = Outcome.ret (some j) := by
  unfold Lookup New
  simp only [hv4, lookup_of_contains rs v4 j r hle hno hj hc]

/-- C2, witness: the table `10.0.0.0-10.0.0.255`, `10.0.1.0-10.0.1.255` and
the address `10.0.1.0` given in its 16-byte mapped form. -/
theorem Lookup_dual_representation_witness :
    To4 (IPv4 10 0 1 0) = some [10, 0, 1, 0]
    ∧ Lookup (New [⟨[10, 0, 0, 0], [10, 0, 0, 255], asciiBytes "A"⟩,
                   ⟨[10, 0, 1, 0], [10, 0, 1, 255], asciiBytes "B"⟩])
        (IPv4 10 0 1 0) = Outcome.ret (some 1) :=
  ⟨by decide,
   Lookup_dual_representation _ (IPv4 10 0 1 0) [10, 0, 1, 0] 1
     ⟨[10, 0, 1, 0], [10, 0, 1, 255], asciiBytes "B"⟩
     (by decide) (by decide) (by decide) (by decide) (by decide) (by decide)
     (by decide)⟩

/-- C3, the code at failing inputs.  The table `globalUnicast` is one range
with 16-byte bounds, and the search step matches the 4-byte probe
`40.1.2.3` against it; the table `tenNet` is one range with 4-byte bounds,
and the search step matches the 16-byte probe `a00:1::` against it. -/
theorem lookup_matches_other_length :
    (boundsOfLength 16 globalUnicast ∧ globalUnicast.length = 1
      ∧ To4 [40, 1, 2, 3] = some [40, 1, 2, 3]
      ∧ lookup { ranges := globalUnicast } [40, 1, 2, 3] = Outcome.ret (some 0))
    ∧ (boundsOfLength 4 tenNet ∧ tenNet.length = 1
      ∧ To16 [10, 0, 0, 1, 0, 0, 0, 0, 0, 0, 0, 0, 0, 0, 0, 0]
          = some [10, 0, 0, 1, 0, 0, 0, 0, 0, 0, 0, 0, 0, 0, 0, 0]
      ∧ lookup { ranges := tenNet } [10, 0, 0, 1, 0, 0, 0, 0, 0, 0, 0, 0, 0, 0, 0, 0]
          = Outcome.ret (some 0)) := by
  decide

/-- C4. `Lookup` on the nil table and on a table built from an empty
sequence returns nil for every address byte sequence. -/
theorem Lookup_empty (ip : IP) :
    Lookup none ip = Outcome.ret none ∧ Lookup (New []) ip = Outcome.ret none := by
  refine ⟨rfl, ?_⟩
  have hl : ∀ p : IP, lookup { ranges := [] } p = Outcome.ret none := by
    intro p
    simp [lookup, sortSearch, searchLoop]
  unfold Lookup New
  cases h4 : To4 ip <;> cases h16 : To16 ip <;> simp [hl]

/-- C5. `NumRanges` of a table built by `New` is the length of the given
sequence, and `NumRanges` of the nil table is 0. -/
theorem NumRanges_New (rs : List Range) :
    NumRanges (New rs) = rs.length ∧ NumRanges (New []) = 0
      ∧ NumRanges none = 0 :=
  ⟨rfl, rfl, rfl⟩

/-- C6. Parser round trip on a well-formed line: for a description `d` with
no colon, no leading white space and no leading `'#'`, a first address text
`a` with no hyphen and a last address text `b`, both accepted by
`net.ParseIP`, the line `d ":" a "-" b` is parsed with `ok = true`, no error,
`Description = d`, `First = ParseIP(a)` and `Last = ParseIP(b)`.
(`net.ParseIP` accepts no text that ends in white space; the library being a
parameter here, `htrail` states this of `b`.) -/
theorem ParseBlocklistP2PLine_round_trip (ParseIP : List Nat → Option IP)
    (d a b : List Nat) (first last : IP)
    (hcolon : 58 ∉ d) (hlead : trimLeftSpace d = d) (hhash : d.head? ≠ some 35)
    (hhyphen : 45 ∉ a) (hfirst : ParseIP a = some first)
    (hlast : ParseIP b = some last) (htrail : trimRightSpace b = b) :
    ParseBlocklistP2PLine ParseIP (d ++ asciiBytes ":" ++ a ++ asciiBytes "-" ++ b)
      = Outcome.ret ({ First := first, Last := last, Description := d }, true, none) := by
  have hline : d ++ asciiBytes ":" ++ a ++ asciiBytes "-" ++ b
      = d ++ 58 :: (a ++ 45 :: b) := by
    rw [asciiBytes_colon, asciiBytes_hyphen]; simp
  rw [hline,
    ParseBlocklistP2PLine_fields ParseIP _ d a b (TrimSpace_line d a b hlead htrail)
      hcolon hhash hhyphen]
  simp [hfirst, hlast]

/-- C6, witness: the line `desc:1.2.3.4-1.2.3.10`, with dotted decimal text
parsed as the library does. -/
theorem ParseBlocklistP2PLine_round_trip_witness :
    asciiBytes "desc" ++ asciiBytes ":" ++ asciiBytes "1.2.3.4" ++ asciiBytes "-"
        ++ asciiBytes "1.2.3.10" = asciiBytes "desc:1.2.3.4-1.2.3.10"
    ∧ ParseBlocklistP2PLine parseIPDotted
        (asciiBytes "desc" ++ asciiBytes ":" ++ asciiBytes "1.2.3.4" ++ asciiBytes "-"
          ++ asciiBytes "1.2.3.10")
      = Outcome.ret ({ First := IPv4 1 2 3 4, Last := IPv4 1 2 3 10,
                       Description := asciiBytes "desc" }, true, none) :=
  ⟨by decide,
   ParseBlocklistP2PLine_round_trip parseIPDotted (asciiBytes "desc")
     (asciiBytes "1.2.3.4") (asciiBytes "1.2.3.10") (IPv4 1 2 3 4) (IPv4 1 2 3 10)
     (by decide) (by decide) (by decide) (by decide) (by decide) (by decide)
     (by decide)⟩

/-- C7. Missing colon is rejected: a line whose trimmed form is not empty,
does not begin with `'#'` and holds no `':'` gives the error
"missing colon", with `ok = false` and the zero range, a `'-'` in the line
or not. -/
theorem ParseBlocklistP2PLine_missing_colon (ParseIP : List Nat → Option IP)
    (l : List Nat) (hne : TrimSpace l ≠ [])
    (hhash : (TrimSpace l).head? ≠ some 35) (hcolon : 58 ∉ TrimSpace l) :
    ParseBlocklistP2PLine ParseIP l
      = Outcome.ret (zeroRange, false, some "missing colon") :=
  parse_missing_colon ParseIP l hne hhash hcolon

/-- C7, witness: the line `nocolon-here`, which holds a hyphen. -/
theorem ParseBlocklistP2PLine_missing_colon_witness :
    45 ∈ asciiBytes "nocolon-here"
    ∧ ParseBlocklistP2PLine parseIPDotted (asciiBytes "nocolon-here")
      = Outcome.ret (zeroRange, false, some "missing colon") :=
  ⟨by decide,
   ParseBlocklistP2PLine_missing_colon parseIPDotted (asciiBytes "nocolon-here")
     (by decide) (by decide) (by decide)⟩

/-- C8. Missing hyphen is rejected: a line whose trimmed form is not empty,
does not begin with `'#'`, holds a `':'` and has no `'-'` after its first
`':'` gives the error "missing hyphen", with `ok = false` and the zero
range; a `'-'` before the first colon does not count. -/
theorem ParseBlocklistP2PLine_missing_hyphen (ParseIP : List Nat → Option IP)
    (l : List Nat) (_hne : TrimSpace l ≠ [])
    (hhash : (TrimSpace l).head? ≠ some 35) (hcolon : 58 ∈ TrimSpace l)
    (hhyphen : 45 ∉ (TrimSpace l).drop ((TrimSpace l).indexOf 58 + 1)) :
    ParseBlocklistP2PLine ParseIP l
      = Outcome.ret (zeroRange, false, some "missing hyphen") := by
  obtain ⟨desc, rest, ht, hdesc, hlen⟩ := split_at_first hcolon
  have hdrop : (TrimSpace l).drop ((TrimSpace l).indexOf 58 + 1) = rest := by
    rw [← hlen]
    conv_lhs => rw [ht]
    have : desc ++ 58 :: rest = (desc ++ [58]) ++ rest := by simp
    rw [this]
    exact List.drop_left' (by simp)
  rw [hdrop] at hhyphen
  exact parse_missing_hyphen ParseIP l desc rest ht hdesc hhash hhyphen

/-- C8, witness: the line `a-b:1.2.3.4`, whose only hyphen stands before the
colon. -/
theorem ParseBlocklistP2PLine_missing_hyphen_witness :
    45 ∈ asciiBytes "a-b:1.2.3.4"
    ∧ ParseBlocklistP2PLine parseIPDotted (asciiBytes "a-b:1.2.3.4")
      = Outcome.ret (zeroRange, false, some "missing hyphen") :=
  ⟨by decide,
   ParseBlocklistP2PLine_missing_hyphen parseIPDotted (asciiBytes "a-b:1.2.3.4")
     (by decide) (by decide) (by decide) (by decide)⟩

/-- C9. Unparseable addresses are skipped, never an error: when the trimmed
line does not begin with `'#'` and reads `desc ":" a "-" b`, with no colon in
`desc` and no hyphen in `a` (so `a` is the first address text and `b` the
last), and `net.ParseIP` rejects `a` or `b`, the parser returns `ok = false`
and a nil error.  And whenever the parser returns an error, the trimmed line
has no colon (error "missing colon") or has no hyphen after its first colon
(error "missing hyphen"). -/
theorem ParseBlocklistP2PLine_bad_address_skipped
    (ParseIP : List Nat → Option IP) (l desc a b : List Nat)
    (ht : TrimSpace l = desc ++ 58 :: (a ++ 45 :: b))
    (hhash : (TrimSpace l).head? ≠ some 35)
    (hdesc : 58 ∉ desc) (ha : 45 ∉ a)
    (hbad : ParseIP a = none ∨ ParseIP b = none) :
    ParseBlocklistP2PLine ParseIP l
        = Outcome.ret ({ First := (ParseIP a).getD [], Last := (ParseIP b).getD [],
                         Description := desc }, false, none)
    ∧ ∀ (l2 : List Nat) (r : Range) (ok : Bool) (msg : String),
        ParseBlocklistP2PLine ParseIP l2 = Outcome.ret (r, ok, some msg) →
          (58 ∉ TrimSpace l2 ∧ msg = "missing colon")
          ∨ (58 ∈ TrimSpace l2
              ∧ 45 ∉ (TrimSpace l2).drop ((TrimSpace l2).indexOf 58 + 1)
              ∧ msg = "missing hyphen") := by
  refine ⟨?_, fun l2 r ok msg h => parse_error_only_separators ParseIP l2 r ok msg h⟩
  have hdh : desc.head? ≠ some 35 := by
    intro hd
    apply hhash
    rw [ht]
    cases desc with
    | nil => simp at hd
    | cons c t => simpa using hd
  rw [ParseBlocklistP2PLine_fields ParseIP l desc a b ht hdesc hdh ha]
  have : ¬ (ParseIP a ≠ none ∧ ParseIP b ≠ none) := by tauto
  simp [this]

/-- C9, witness: the line `desc:notanip-1.2.3.4`. -/
theorem ParseBlocklistP2PLine_bad_address_skipped_witness :
    ParseBlocklistP2PLine parseIPDotted (asciiBytes "desc:notanip-1.2.3.4")
      = Outcome.ret ({ First := [], Last := IPv4 1 2 3 4,
                       Description := asciiBytes "desc" }, false, none) :=
  (ParseBlocklistP2PLine_bad_address_skipped parseIPDotted
    (asciiBytes "desc:notanip-1.2.3.4") (asciiBytes "desc") (asciiBytes "notanip")
    (asciiBytes "1.2.3.4") (by decide) (by decide) (by decide) (by decide)
    (by decide)).1

/-- C10. Blank and comment lines are skipped: a line whose trimmed form is
empty or begins with `'#'` gives `ok = false`, a nil error and the zero
range, whatever follows the `'#'`. -/
theorem ParseBlocklistP2PLine_blank_or_comment (ParseIP : List Nat → Option IP)
    (l : List Nat)
    (h : TrimSpace l = [] ∨ (TrimSpace l).head? = some 35) :
    ParseBlocklistP2PLine ParseIP l = Outcome.ret (zeroRange, false, none)
    ∧ zeroRange = { First := [], Last := [], Description := [] } :=
  ⟨parse_skip ParseIP l h, rfl⟩

/-- C10, witness: the lines `# comment`, the empty line, and a comment that
holds a full range after white space. -/
theorem ParseBlocklistP2PLine_blank_or_comment_witness :
    ParseBlocklistP2PLine parseIPDotted (asciiBytes "# comment")
        = Outcome.ret (zeroRange, false, none)
    ∧ ParseBlocklistP2PLine parseIPDotted (asciiBytes "")
        = Outcome.ret (zeroRange, false, none)
    ∧ ParseBlocklistP2PLine parseIPDotted (asciiBytes " \t#d:1.2.3.4-1.2.3.10")
        = Outcome.ret (zeroRange, false, none) :=
  ⟨(ParseBlocklistP2PLine_blank_or_comment parseIPDotted (asciiBytes "# comment")
      (by decide)).1,
   (ParseBlocklistP2PLine_blank_or_comment parseIPDotted (asciiBytes "")
      (by decide)).1,
   (ParseBlocklistP2PLine_blank_or_comment parseIPDotted
      (asciiBytes " \t#d:1.2.3.4-1.2.3.10") (by decide)).1⟩

/-- C11. `Lookup` is safe without the construction precondition: for every
range sequence given to `New` (unsorted, overlapping, bounds of any lengths)
and every address byte sequence, `Lookup` returns (no index out of range at
`ranges[i+1]` or `ranges[i]`, no fuel exhausted), and what it returns is nil
or a pointer to an element of the stored sequence. -/
theorem Lookup_safe (rs : List Range) (ip : IP) :
    ∃ res, Lookup (New rs) ip = Outcome.ret res
      ∧ (res = none ∨ ∃ i r, res = some i ∧ rs[i]? = some r) := by
  obtain ⟨res, hres⟩ := Lookup_returns (New rs) ip
  refine ⟨res, hres, ?_⟩
  cases res with
  | none => exact Or.inl rfl
  | some i =>
    right
    unfold New at hres
    rcases Lookup_some_from_lookup hres with ⟨v, _, hv⟩ | ⟨v, _, hv⟩
    · have hlt : i < rs.length := lookup_some_lt hv
      exact ⟨i, rs[i], rfl, List.getElem?_eq_getElem hlt⟩
    · have hlt : i < rs.length := lookup_some_lt hv
      exact ⟨i, rs[i], rfl, List.getElem?_eq_getElem hlt⟩

/-- C12. Logarithmic lookup: on a table of `n >= 1` ranges, for every probe,
the search step returns after calling the predicate of its binary search at
most `floor(log2 n) + 1` times; each call makes at most one comparison and
the containment check at most two, so the comparisons of one `lookup` are at
most two more than the calls, and those of one `Lookup` at most
`2 * (floor(log2 n) + 3)`. -/
theorem lookup_logarithmic (me : IPList) (ip : IP)
    (hn : 1 ≤ me.ranges.length) :
    (∃ res evals cmps, lookupCounted me ip = Outcome.ret (res, evals, cmps)
      ∧ lookup me ip = Outcome.ret res
      ∧ evals ≤ Nat.log 2 me.ranges.length + 1
      ∧ cmps ≤ evals + 2)
    ∧ (∀ i, ∃ b q, lookupPredCounted me ip i = Outcome.ret (b, q)
      ∧ lookupPred me ip i = Outcome.ret b ∧ q ≤ 1)
    ∧ (∃ res cmps, LookupCounted (some me) ip = Outcome.ret (res, cmps)
      ∧ Lookup (some me) ip = Outcome.ret res
      ∧ cmps ≤ 2 * (Nat.log 2 me.ranges.length + 3)) := by
  refine ⟨?_, fun i => lookupPredCounted_ret me ip i, LookupCounted_spec me ip hn⟩
  obtain ⟨res, ev, cm, h1, h2, h3, -, h5⟩ := lookupCounted_spec me ip
  exact ⟨res, ev, cm, h1, h2, h3 hn, h5⟩

/-- C12, witness: the table `10.0.0.0-10.0.0.255`, `10.0.1.0-10.0.1.255`
(`n = 2`) and the probe `10.0.1.7`: two calls of the predicate and three
comparisons. -/
theorem lookup_logarithmic_witness :
    lookupCounted { ranges := twoNets } [10, 0, 1, 7] = Outcome.ret (some 1, 2, 3)
    ∧ Nat.log 2 twoNets.length + 1 = 2
    ∧ (∃ res evals cmps,
        lookupCounted { ranges := twoNets } [10, 0, 1, 7]
          = Outcome.ret (res, evals, cmps)
        ∧ lookup { ranges := twoNets } [10, 0, 1, 7] = Outcome.ret res
        ∧ evals ≤ Nat.log 2 twoNets.length + 1
        ∧ cmps ≤ evals + 2) :=
  ⟨by decide, by simp [twoNets, Nat.log],
   (lookup_logarithmic { ranges := twoNets } [10, 0, 1, 7] (by decide)).1⟩

/-- C13. Correctness of the single-family search step: in a table whose
bounds all have length `k`, with `first <= last` in each range, sorted by
first and without overlap, for a probe `p` of length `k`, `lookup(p)`
returns the pointer to `ranges[j]` if and only if `ranges[j]` contains `p`,
and returns nil if and only if no range contains `p`. -/
theorem lookup_correct (rs : List Range) (k : Nat) (p : IP)
    (_hlen : boundsOfLength k rs) (hle : firstLeLast rs)
    (_hsorted : sortedByFirst rs) (hno : nonOverlapping rs)
    (_hp : p.length = k) :
    (∀ j, lookup { ranges := rs } p = Outcome.ret (some j)
        ↔ ∃ r, rs[j]? = some r ∧ r.contains p)
    ∧ (lookup { ranges := rs } p = Outcome.ret none
        ↔ ∀ r ∈ rs, ¬ r.contains p) :=
  ⟨fun j => lookup_some_iff rs p j hle hno, lookup_none_iff rs p hle hno⟩

/-- C13, witness: the table `10.0.0.0-10.0.0.255`, `10.0.1.0-10.0.1.255`
and the probe `10.0.1.7`. -/
theorem lookup_correct_witness :
    (∀ j, lookup { ranges := twoNets } [10, 0, 1, 7] = Outcome.ret (some j)
        ↔ ∃ r, twoNets[j]? = some r ∧ r.contains [10, 0, 1, 7])
    ∧ (lookup { ranges := twoNets } [10, 0, 1, 7] = Outcome.ret none
        ↔ ∀ r ∈ twoNets, ¬ r.contains [10, 0, 1, 7]) :=
  lookup_correct twoNets 4 [10, 0, 1, 7] (by decide) (by decide) (by decide)
    (by decide) (by decide)

/-- C14. Unconditional soundness of a match: for every table and probe, if
`lookup(p)` returns the pointer to a range `r` then
`bytes.Compare(p, r.First) >= 0` and `bytes.Compare(p, r.Last) <= 0`; and
every range returned by `Lookup(ip)` contains `ip.To4()` or `ip.To16()` in
the order of `bytes.Compare`. -/
theorem lookup_sound (rs : List Range) (p ip : IP) (j : Nat) :
    (lookup { ranges := rs } p = Outcome.ret (some j) →
      ∃ r, rs[j]? = some r ∧ bytesCompare p r.First ≥ 0
        ∧ bytesCompare p r.Last ≤ 0)
    ∧ (Lookup (New rs) ip = Outcome.ret (some j) →
      ∃ r, rs[j]? = some r
        ∧ ((∃ v4, To4 ip = some v4 ∧ r.contains v4)
          ∨ (∃ v6, To16 ip = some v6 ∧ r.contains v6))) := by
  constructor
  · intro h
    obtain ⟨r, hr, hc⟩ := lookup_some_contains rs p j h
    refine ⟨r, hr, ?_, hc.2⟩
    have := hc.1
    rw [bytesCompare_swap] at this
    omega
  · intro h
    unfold New at h
    rcases Lookup_some_from_lookup h with ⟨v, hv, hl⟩ | ⟨v, hv, hl⟩
    · obtain ⟨r, hr, hc⟩ := lookup_some_contains rs v j hl
      exact ⟨r, hr, Or.inl ⟨v, hv, hc⟩⟩
    · obtain ⟨r, hr, hc⟩ := lookup_some_contains rs v j hl
      exact ⟨r, hr, Or.inr ⟨v, hv, hc⟩⟩

/-- C14, witness: on the table `900::` to `bff:...` after the mapped block
`10.0.0.0-10.0.0.255`, the range returned for `::ffff:10.0.0.7` contains the
4-byte form `10.0.0.7` in the order of `bytes.Compare`. -/
theorem lookup_sound_witness :
    ∃ r, mappedThenV6[1]? = some r
      ∧ ((∃ v4, To4 (IPv4 10 0 0 7) = some v4 ∧ r.contains v4)
        ∨ (∃ v6, To16 (IPv4 10 0 0 7) = some v6 ∧ r.contains v6)) :=
  (lookup_sound mappedThenV6 [] (IPv4 10 0 0 7) 1).2 (by decide)

/-- C15. The binary search finds the specified candidate index: on a
non-empty table sorted ascending by first, with bounds of the length of the
probe, the index computed by `sort.Search` in `lookup` is an index of the
table, it is a candidate (it is the last index or the probe is below the
first bound of the next range), no lower index is a candidate, and it is the
index found by the linear scan `candidateSpec`. -/
theorem sortSearch_finds_candidate (rs : List Range) (p : IP) (hne : rs ≠ [])
    (_hlen : boundsOfLength p.length rs) (hs : sortedByFirst rs) :
    ∃ c, sortSearch rs.length (lookupPred { ranges := rs } p) = Outcome.ret c
      ∧ c < rs.length ∧ isCandidate rs p c = true
      ∧ (∀ i, i < c → isCandidate rs p i = false)
      ∧ candidateSpec rs p = c := by
  obtain ⟨c, hc, hlt, hcand, hlow⟩ := sortSearch_lowest_candidate rs p hne hs
  refine ⟨c, hc, hlt, hcand, hlow, ?_⟩
  unfold candidateSpec
  exact linearSearch_eq (isCandidate rs p) rs.length 0 c (Nat.zero_le _)
    (by omega) hcand (fun m _ hm => hlow m hm)

/-- C15, witness: the table `10.0.0.0-10.0.0.255`, `10.0.1.0-10.0.1.255`
and the probe `10.0.0.7`, whose candidate is index 0. -/
theorem sortSearch_finds_candidate_witness :
    candidateSpec twoNets [10, 0, 0, 7] = 0
    ∧ ∃ c, sortSearch twoNets.length (lookupPred { ranges := twoNets } [10, 0, 0, 7])
          = Outcome.ret c
      ∧ c < twoNets.length ∧ isCandidate twoNets [10, 0, 0, 7] c = true
      ∧ (∀ i, i < c → isCandidate twoNets [10, 0, 0, 7] i = false)
      ∧ candidateSpec twoNets [10, 0, 0, 7] = c :=
  ⟨by decide,
   sortSearch_finds_candidate twoNets [10, 0, 0, 7] (by decide) (by decide)
     (by decide)⟩

/-- C16. End-to-end correctness for IPv4 lists stored in 16-byte form: on a
table all of whose bounds are IPv4-mapped, with `first <= last`, sorted by
first and without overlap, for an IPv4 address given as 4 bytes or in mapped
form, the address has a 4-byte form `v4` and a mapped 16-byte form `v6`, the
preliminary search with `v4` finds nothing, and `Lookup` returns the pointer
to range `j` exactly when range `j` contains `v6`, and nil exactly when no
range contains `v6`. -/
theorem Lookup_mapped_table (rs : List Range) (ip : IP)
    (hm : mappedBounds rs) (hle : firstLeLast rs) (_hs : sortedByFirst rs)
    (hno : nonOverlapping rs) (hip : ip.length = 4 ∨ isMapped ip) :
    ∃ v4 v6, To4 ip = some v4 ∧ To16 ip = some v6 ∧ isMapped v6
      ∧ lookup { ranges := rs } v4 = Outcome.ret none
      ∧ (∀ j, Lookup (New rs) ip = Outcome.ret (some j)
          ↔ ∃ r, rs[j]? = some r ∧ r.contains v6)
      ∧ (Lookup (New rs) ip = Outcome.ret none ↔ ∀ r ∈ rs, ¬ r.contains v6) := by
  have hforms : ∃ v4 v6, To4 ip = some v4 ∧ To16 ip = some v6 ∧ isMapped v6
      ∧ v4.length = 4 := by
    rcases hip with h | h
    · refine ⟨ip, IPv4 (ip.getD 0 0) (ip.getD 1 0) (ip.getD 2 0) (ip.getD 3 0),
        by simp [To4, h], by simp [To16, h], isMapped_IPv4 _ _ _ _, h⟩
    · obtain ⟨a, b, c, d, rfl⟩ := isMapped_eq h
      exact ⟨[a, b, c, d], IPv4 a b c d, To4_IPv4 a b c d, To16_IPv4 a b c d, h, rfl⟩
  obtain ⟨v4, v6, h4, h16, hmap, hv4len⟩ := hforms
  have hfirst := lookup_v4_in_mapped rs hm v4 hv4len
  have hL : Lookup (New rs) ip = lookup { ranges := rs } v6 := by
    unfold New
    exact Lookup_of_first_none h4 h16 hfirst
  refine ⟨v4, v6, h4, h16, hmap, hfirst, ?_, ?_⟩
  · intro j
    rw [hL]
    exact lookup_some_iff rs v6 j hle hno
  · rw [hL]
    exact lookup_none_iff rs v6 hle hno

/-- C16, witness: the mapped table `10.0.0.0-10.0.0.255`,
`10.0.1.0-10.0.1.255` and the address `10.0.1.9` given as 4 bytes. -/
theorem Lookup_mapped_table_witness :
    Lookup (New mappedTable) [10, 0, 1, 9] = Outcome.ret (some 1)
    ∧ ∃ v4 v6, To4 [10, 0, 1, 9] = some v4 ∧ To16 [10, 0, 1, 9] = some v6
      ∧ isMapped v6
      ∧ lookup { ranges := mappedTable } v4 = Outcome.ret none
      ∧ (∀ j, Lookup (New mappedTable) [10, 0, 1, 9] = Outcome.ret (some j)
          ↔ ∃ r, mappedTable[j]? = some r ∧ r.contains v6)
      ∧ (Lookup (New mappedTable) [10, 0, 1, 9] = Outcome.ret none
          ↔ ∀ r ∈ mappedTable, ¬ r.contains v6) :=
  ⟨by decide,
   Lookup_mapped_table mappedTable [10, 0, 1, 9] (by decide) (by decide)
     (by decide) (by decide) (by decide)⟩

/-- C17. An address that is neither 4 nor 16 bytes long is never found: both
`ip.To4()` and `ip.To16()` are nil, `Lookup(ip)` returns nil on every table,
and no comparison is made. -/
theorem Lookup_bad_length (me : Option IPList) (ip : IP)
    (h4 : ip.length ≠ 4) (h16 : ip.length ≠ 16) :
    To4 ip = none ∧ To16 ip = none ∧ Lookup me ip = Outcome.ret none
      ∧ LookupCounted me ip = Outcome.ret (none, 0) := by
  refine ⟨To4_none h4 h16, To16_none h4 h16, ?_, ?_⟩
  · cases me with
    | none => rfl
    | some t => simp [Lookup, To4_none h4 h16, To16_none h4 h16]
  · cases me with
    | none => rfl
    | some t => simp [LookupCounted, To4_none h4 h16, To16_none h4 h16]

/-- C17, witness: the empty address and a 5-byte address on a table that
holds `10.0.0.0-10.0.0.255`. -/
theorem Lookup_bad_length_witness :
    Lookup (New twoNets) [] = Outcome.ret none
    ∧ Lookup (New twoNets) [10, 0, 0, 7, 0] = Outcome.ret none :=
  ⟨(Lookup_bad_length (New twoNets) [] (by decide) (by decide)).2.2.1,
   (Lookup_bad_length (New twoNets) [10, 0, 0, 7, 0] (by decide) (by decide)).2.2.1⟩

/-- C18. The parser ignores surrounding white space: for every line `l` and
all `w1`, `w2` made only of the bytes space, tab, carriage return and
newline, `ParseBlocklistP2PLine(w1 ++ l ++ w2)` returns the same range, ok
flag and error as `ParseBlocklistP2PLine(l)`. -/
theorem ParseBlocklistP2PLine_ignores_blanks (ParseIP : List Nat → Option IP)
    (l w1 w2 : List Nat) (h1 : ∀ c ∈ w1, isBlankByte c)
    (h2 : ∀ c ∈ w2, isBlankByte c) :
    ParseBlocklistP2PLine ParseIP (w1 ++ l ++ w2)
      = ParseBlocklistP2PLine ParseIP l := by
  have ht : TrimSpace (w1 ++ l ++ w2) = TrimSpace l :=
    TrimSpace_blanks w1 l w2 (fun c hc => isBlankByte_asciiSpace (h1 c hc))
      (fun c hc => isBlankByte_asciiSpace (h2 c hc))
  unfold ParseBlocklistP2PLine
  rw [ht]

/-- C18, witness: the line `desc:1.2.3.4-1.2.3.10` between a space and a tab
on the left and a carriage return and a newline on the right. -/
theorem ParseBlocklistP2PLine_ignores_blanks_witness :
    ParseBlocklistP2PLine parseIPDotted
        (asciiBytes " \t" ++ asciiBytes "desc:1.2.3.4-1.2.3.10" ++ asciiBytes "\r\n")
      = ParseBlocklistP2PLine parseIPDotted (asciiBytes "desc:1.2.3.4-1.2.3.10")
    ∧ ParseBlocklistP2PLine parseIPDotted
        (asciiBytes " \t" ++ asciiBytes "desc:1.2.3.4-1.2.3.10" ++ asciiBytes "\r\n")
      = Outcome.ret ({ First := IPv4 1 2 3 4, Last := IPv4 1 2 3 10,
                       Description := asciiBytes "desc" }, true, none) :=
  ⟨ParseBlocklistP2PLine_ignores_blanks parseIPDotted
     (asciiBytes "desc:1.2.3.4-1.2.3.10") (asciiBytes " \t") (asciiBytes "\r\n")
     (by decide) (by decide),
   by decide⟩

/-- C19. The parser is total on arbitrary bytes: for every byte sequence it
returns a result (no slice bounds out of range), never `ok = true` together
with an error; and on the trimmed line `t`, when a colon is found the slice
`t[colon+1:]` has `0 <= colon+1 <= len(t)`, and when a hyphen is found after
it the slices `t[:colon]`, `t[colon+1:hyphen]` and `t[hyphen+1:]` have
`0 <= colon <= len(t)`, `colon+1 <= hyphen <= len(t)` and
`hyphen+1 <= len(t)`. -/
theorem ParseBlocklistP2PLine_total (ParseIP : List Nat → Option IP)
    (l : List Nat) :
    (∃ r ok err, ParseBlocklistP2PLine ParseIP l = Outcome.ret (r, ok, err)
      ∧ ¬ (ok = true ∧ err ≠ none))
    ∧ (lineColon l ≠ -1 →
        0 ≤ lineColon l + 1 ∧ lineColon l + 1 ≤ ((TrimSpace l).length : Int)
        ∧ slice (TrimSpace l) (lineColon l + 1) ((TrimSpace l).length : Int)
            = Outcome.ret (lineRest l))
    ∧ (lineColon l ≠ -1 → IndexByte (lineRest l) 45 ≠ -1 →
        0 ≤ lineColon l ∧ lineColon l ≤ ((TrimSpace l).length : Int)
        ∧ lineColon l + 1 ≤ lineHyphen l
        ∧ lineHyphen l ≤ ((TrimSpace l).length : Int)
        ∧ 0 ≤ lineHyphen l + 1
        ∧ lineHyphen l + 1 ≤ ((TrimSpace l).length : Int)) := by
  refine ⟨?_, ?_, ?_⟩
  · rcases parse_cases ParseIP l with h | h | h | ⟨r, ok, h⟩
    · exact ⟨_, _, _, h, by simp⟩
    · exact ⟨_, _, _, h, by simp⟩
    · exact ⟨_, _, _, h, by simp⟩
    · exact ⟨_, _, _, h, by simp⟩
  · intro hc
    obtain ⟨h0, h1, h2⟩ := lineRest_bounds l hc
    exact ⟨by omega, h1, h2⟩
  · intro hc hh
    obtain ⟨h0, h1, h2, h3, h4⟩ := lineHyphen_bounds l hc hh
    exact ⟨h0, h1, h2, h3, by omega, h4⟩

/-- C19, witness: the line `:-`, where `colon = 0`, `hyphen = 1` and the
three slices `l[:0]`, `l[1:1]` and `l[2:]` are empty. -/
theorem ParseBlocklistP2PLine_total_witness :
    lineColon (asciiBytes ":-") = 0 ∧ lineHyphen (asciiBytes ":-") = 1
    ∧ ParseBlocklistP2PLine parseIPDotted (asciiBytes ":-")
        = Outcome.ret (zeroRange, false, none)
    ∧ (0 ≤ lineColon (asciiBytes ":-")
        ∧ lineColon (asciiBytes ":-") ≤ ((TrimSpace (asciiBytes ":-")).length : Int)
        ∧ lineColon (asciiBytes ":-") + 1 ≤ lineHyphen (asciiBytes ":-")
        ∧ lineHyphen (asciiBytes ":-") ≤ ((TrimSpace (asciiBytes ":-")).length : Int)
        ∧ 0 ≤ lineHyphen (asciiBytes ":-") + 1
        ∧ lineHyphen (asciiBytes ":-") + 1
            ≤ ((TrimSpace (asciiBytes ":-")).length : Int)) :=
  ⟨by decide, by decide, by decide,
   (ParseBlocklistP2PLine_total parseIPDotted (asciiBytes ":-")).2.2
     (by decide) (by decide)⟩

end Iplist
